import Mathlib

set_option maxRecDepth 100000

/-!
Verification of the TypeQL schema-documentation generator
(`local_resources/typedb/generate_schema_docs.py`).

The Python source is shallowly embedded: each dataclass becomes a Lean
structure, the regex-dispatch parser becomes a fueled recursive function over
the list of input lines, `dict` registries become insertion-ordered
association lists (Python 3.7+ dicts preserve insertion order), and Python
`set`s that are only membership-tested become lists queried with membership.
Code that can raise (`KeyError` on a missing type name) or diverge
(`_resolve_kinds` on a cyclic parent chain of unresolved kinds) is embedded
with `Option`, `none` marking the exception/divergence.

Character classes follow the ASCII fragment of Python `re` module
(`\w` = letters, digits, underscore; `\s` = the six ASCII whitespace
characters); all schema sources and names in the repository are ASCII.
-/

-- ===========================================================================
-- Character / string primitives (ASCII fragment of Python str and re)
-- ===========================================================================

/-- Python `\s` (ASCII fragment): space, tab, newline, carriage return,
vertical tab, form feed. -/
def isSpaceChar (c : Char) : Bool :=
  c = ' ' || c = '\t' || c = '\n' || c = '\r' || c = '\x0b' || c = '\x0c'

/-- Python `\w` (ASCII fragment): letters, digits, underscore. -/
def isWordChar (c : Char) : Bool :=
  (('a' ≤ c && c ≤ 'z') || ('A' ≤ c && c ≤ 'Z') || ('0' ≤ c && c ≤ '9') || c = '_')

/-- The character class `[\w-]` used for type, attribute and role names. -/
def isWordHyphen (c : Char) : Bool := isWordChar c || c = '-'

/-- Python `str.rstrip()` on a list of characters. -/
def rstripChars (l : List Char) : List Char :=
  (l.reverse.dropWhile isSpaceChar).reverse

/-- Python `str.lstrip()` on a list of characters. -/
def lstripChars (l : List Char) : List Char := l.dropWhile isSpaceChar

/-- Python `str.strip()` on a list of characters. -/
def stripChars (l : List Char) : List Char := rstripChars (lstripChars l)

/-- Python `str.rstrip()`. -/
def rstripStr (s : String) : String := String.mk (rstripChars s.data)

/-- Python `str.strip()`. -/
def stripStr (s : String) : String := String.mk (stripChars s.data)

/-- `needle` is a prefix of `hay` (by decidable Boolean recursion). -/
def startsWithSeq (needle hay : List Char) : Bool :=
  match needle, hay with
  | [], _ => true
  | _ :: _, [] => false
  | n :: ns, h :: hs => n = h && startsWithSeq ns hs

/-- Decidable check that `needle` occurs as a contiguous substring of
`hay` (Python `needle in hay`). -/
def containsSeq (needle hay : List Char) : Bool :=
  match hay with
  | [] => needle.isEmpty
  | _ :: rest => startsWithSeq needle hay || containsSeq needle rest

/-- Python `needle in hay` for strings. -/
def strContains (hay needle : String) : Bool := containsSeq needle.data hay.data

/-- Python `str.lower()` (ASCII fragment). -/
def lowerStr (s : String) : String :=
  String.mk (s.data.map Char.toLower)

/-- Python `str.capitalize()` (first character upper-cased, rest lower-cased;
ASCII fragment). -/
def capitalizeStr (s : String) : String :=
  match s.data with
  | [] => ""
  | c :: rest => String.mk (c.toUpper :: rest.map Char.toLower)

/-- Python `" ".join(parts)`. -/
def joinSpace (parts : List String) : String := String.intercalate " " parts

/-- Python `"\n".join(parts)`. -/
def joinLines (parts : List String) : String := String.intercalate "\n" parts

-- ===========================================================================
-- Data model (the dataclasses of the source)
-- ===========================================================================

/-- `OwnsClause`: one `owns` declaration.  The Python field `attribute` is
called `attr` here because `attribute` is a Lean keyword. -/
structure OwnsClause where
  attr : String
  is_key : Bool := false
  defined_in : String := ""
  deriving DecidableEq

/-- `PlaysClause`: one `plays relation:role` declaration. -/
structure PlaysClause where
  relation : String
  role : String
  defined_in : String := ""
  deriving DecidableEq

/-- `RelatesClause`: one `relates role` declaration. -/
structure RelatesClause where
  role : String
  defined_in : String := ""
  deriving DecidableEq

/-- `TypeDef`: one declared type.  The Python field `section` is called
`sectionLabel` here because `section` is a Lean keyword. -/
structure TypeDef where
  name : String
  kind : String
  parent : String := ""
  is_abstract : Bool := false
  value_type : String := ""
  owns : List OwnsClause := []
  plays : List PlaysClause := []
  relates : List RelatesClause := []
  defined_in : String := ""
  comment : String := ""
  sectionLabel : String := ""
  deriving DecidableEq

/-- `SchemaModel`: the mapping from type name to `TypeDef`, embedded as an
insertion-ordered association list mirroring a Python dict. -/
structure SchemaModel where
  types : List (String × TypeDef)
  deriving DecidableEq

/-- Lookup in the association list (Python `model.types[name]` /
`name in model.types`), first matching key. -/
def findEntry? (l : List (String × TypeDef)) (n : String) : Option TypeDef :=
  match l with
  | [] => none
  | (k, td) :: rest => if k = n then some td else findEntry? rest n

/-- `model.types[name]` as an `Option`. -/
def SchemaModel.find? (m : SchemaModel) (n : String) : Option TypeDef :=
  findEntry? m.types n

/-- `name in model.types`. -/
def SchemaModel.containsName (m : SchemaModel) (n : String) : Bool :=
  (m.find? n).isSome

/-- Python dict assignment `model.types[name] = td`: replace the entry with
this key if present (keeping its position), append otherwise. -/
def updateEntries (l : List (String × TypeDef)) (n : String) (td : TypeDef) :
    List (String × TypeDef) :=
  if (findEntry? l n).isSome then
    l.map (fun e => if e.1 = n then (n, td) else e)
  else
    l ++ [(n, td)]

/-- Python dict assignment on the model. -/
def SchemaModel.insertOrUpdate (m : SchemaModel) (n : String) (td : TypeDef) :
    SchemaModel :=
  ⟨updateEntries m.types n td⟩

def emptyModel : SchemaModel := ⟨[]⟩

-- ===========================================================================
-- Inheritance resolver (`SchemaModel.get_ancestors`, `get_inherited_owns`,
-- `get_inherited_plays`)
-- ===========================================================================

/-- The body of the `while` loop of `get_ancestors`.  `seen` is the Python
`set` (membership-tested only), `ancestors` the accumulated chain.  The loop
is embedded with fuel; every non-breaking iteration adds a fresh name to
`seen` and all but possibly the last of those names are keys of the model, so
with fuel `m.types.length + 2` the fuel is never exhausted (the loop either
breaks on a repeated name or exits on a missing/empty parent first). -/
def ancestorsGo (m : SchemaModel) (current : String) (seen ancestors : List String) :
    Nat → List String
  | 0 => ancestors
  | Nat.succ f =>
    match m.find? current with
    | none => ancestors
    | some td =>
      if td.parent = "" then ancestors
      else if td.parent ∈ seen then ancestors
      else ancestorsGo m td.parent (td.parent :: seen) (ancestors ++ [td.parent]) f

/-- `SchemaModel.get_ancestors`: walk the parent chain, returning
`[parent, grandparent, ...]`, stopping on a repeated name or a parent that is
absent from the model. -/
def SchemaModel.get_ancestors (m : SchemaModel) (name : String) : List String :=
  ancestorsGo m name [] [] (m.types.length + 2)

/-- The inner loop of `get_inherited_owns` / `get_inherited_plays` for a
single ancestor: emit `(clause, ancestor)` for every clause whose key is not
yet in `seen`, marking emitted keys as seen.  `key` projects the
deduplication key (attribute name, or `(relation, role)` pair). -/
def takeNewBy {α κ : Type} [DecidableEq κ] (key : α → κ) (anc : String) :
    List α → List κ → List (α × String) × List κ
  | [], seen => ([], seen)
  | o :: rest, seen =>
    if key o ∈ seen then takeNewBy key anc rest seen
    else
      let r := takeNewBy key anc rest (key o :: seen)
      ((o, anc) :: r.1, r.2)

/-- The ancestor loop shared by `get_inherited_owns` and
`get_inherited_plays`: ancestors absent from the model are skipped. -/
def inheritGo {α κ : Type} [DecidableEq κ] (key : α → κ) (get : TypeDef → List α)
    (m : SchemaModel) : List String → List κ → List (α × String)
  | [], _ => []
  | a :: rest, seen =>
    match m.find? a with
    | none => inheritGo key get m rest seen
    | some atd =>
      let r := takeNewBy key a (get atd) seen
      r.1 ++ inheritGo key get m rest r.2

/-- `SchemaModel.get_inherited_owns`; `none` models the `KeyError` raised by
`self.types[name]` when `name` is not a key of the model. -/
def SchemaModel.get_inherited_owns (m : SchemaModel) (name : String) :
    Option (List (OwnsClause × String)) :=
  (m.find? name).map fun td =>
    inheritGo (fun o => o.attr) (fun t => t.owns) m (m.get_ancestors name)
      (td.owns.map fun o => o.attr)

/-- `SchemaModel.get_inherited_plays`; `none` models the `KeyError` raised by
`self.types[name]` when `name` is not a key of the model. -/
def SchemaModel.get_inherited_plays (m : SchemaModel) (name : String) :
    Option (List (PlaysClause × String)) :=
  (m.find? name).map fun td =>
    inheritGo (fun p => (p.relation, p.role)) (fun t => t.plays) m
      (m.get_ancestors name) (td.plays.map fun p => (p.relation, p.role))

-- ===========================================================================
-- Regex embeddings.  Each `RE_*` pattern of the source is a left-anchored
-- prefix match (Python `re.match`).  Every boundary in these patterns sits
-- between disjoint character classes or mandatory literals, so greedy
-- committed parsing without backtracking is equivalent to the regex engine.
-- ===========================================================================

/-- `([\w-]+)`: greedy, at least one character. -/
def takeName (l : List Char) : Option (String × List Char) :=
  match l.takeWhile isWordHyphen with
  | [] => none
  | pre => some (String.mk pre, l.dropWhile isWordHyphen)

/-- `(\w+)`: greedy, at least one character. -/
def takeWord (l : List Char) : Option (String × List Char) :=
  match l.takeWhile isWordChar with
  | [] => none
  | pre => some (String.mk pre, l.dropWhile isWordChar)

/-- `\s+`: at least one whitespace character, greedy. -/
def spaces1 (l : List Char) : Option (List Char) :=
  match l with
  | c :: _ => if isSpaceChar c then some (lstripChars l) else none
  | [] => none

/-- A literal fragment of a pattern. -/
def expectSeq (lit hay : List Char) : Option (List Char) :=
  if startsWithSeq lit hay then some (hay.drop lit.length) else none

/-- A single literal character. -/
def expectChar (c : Char) (l : List Char) : Option (List Char) :=
  match l with
  | x :: rest => if x = c then some rest else none
  | [] => none

/-- A `([,;])` terminator group (anything may follow: `re.match` is a prefix
match); also returns the unconsumed suffix. -/
def takeTerm (l : List Char) : Option (Char × List Char) :=
  match l with
  | c :: rest => if c = ',' || c = ';' then some (c, rest) else none
  | [] => none

/-- `RE_COMMENT = ^#\s*(.*)`: any line starting with `#`; the group is the
rest of the line with leading whitespace removed. -/
def matchComment (l : List Char) : Option (List Char) :=
  match l with
  | '#' :: rest => some (lstripChars rest)
  | _ => none

/-- `RE_SECTION_HEADER = ^#\s*[-=]{3,}`. -/
def isSeparatorLine (l : List Char) : Bool :=
  match l with
  | '#' :: rest =>
    match lstripChars rest with
    | c1 :: c2 :: c3 :: _ =>
      (c1 = '-' || c1 = '=') && (c2 = '-' || c2 = '=') && (c3 = '-' || c3 = '=')
    | _ => false
  | _ => false

/-- The class `[\w\s/()-]` of `RE_SECTION_TITLE`. -/
def isTitleChar (c : Char) : Bool :=
  isWordChar c || isSpaceChar c || c = '/' || c = '(' || c = ')' || c = '-'

/-- `RE_SECTION_TITLE = ^#\s+([A-Z][\w\s/()-]+)`: returns group 1. -/
def matchSectionTitle (l : List Char) : Option (List Char) :=
  match l with
  | '#' :: rest =>
    match rest with
    | c0 :: _ =>
      if isSpaceChar c0 then
        match lstripChars rest with
        | c :: r2 =>
          if 'A' ≤ c && c ≤ 'Z' then
            match r2.takeWhile isTitleChar with
            | [] => none
            | grp => some (c :: grp)
          else none
        | [] => none
      else none
    | [] => none
  | _ => none

/-- `RE_ATTRIBUTE_DEF = ^([\w-]+)\s+sub\s+attribute\s*,\s*value\s+(\w+)\s*;`:
returns `(name, value_type)`. -/
def matchAttributeDef (l : List Char) : Option (String × String) := do
  let (name, r1) ← takeName l
  let r2 ← spaces1 r1
  let r3 ← expectSeq "sub".data r2
  let r4 ← spaces1 r3
  let r5 ← expectSeq "attribute".data r4
  let r6 ← expectChar ',' (lstripChars r5)
  let r7 ← expectSeq "value".data (lstripChars r6)
  let r8 ← spaces1 r7
  let (vt, r9) ← takeWord r8
  let _ ← expectChar ';' (lstripChars r9)
  pure (name, vt)

/-- `RE_TYPE_START = ^([\w-]+)\s+sub\s+([\w-]+)\s*([,;])`: returns
`(name, parent, terminator, rest_of_line)` where `rest_of_line` is the text
after `match.end()` (used for the inline `abstract` check). -/
def matchTypeStart (l : List Char) : Option (String × String × Char × List Char) := do
  let (name, r1) ← takeName l
  let r2 ← spaces1 r1
  let r3 ← expectSeq "sub".data r2
  let r4 ← spaces1 r3
  let (parent, r5) ← takeName r4
  let (term, rest) ← takeTerm (lstripChars r5)
  pure (name, parent, term, rest)

/-- `RE_OWNS = ^\s*owns\s+([\w-]+)(\s+@key)?\s*([,;])`: returns
`(attribute, is_key, terminator)`. -/
def matchOwns (l : List Char) : Option (String × Bool × Char) := do
  let r1 ← expectSeq "owns".data (lstripChars l)
  let r2 ← spaces1 r1
  let (a, r3) ← takeName r2
  let (isKey, r4) :=
    match spaces1 r3 >>= expectSeq "@key".data with
    | some r => (true, r)
    | none => (false, r3)
  let (term, _) ← takeTerm (lstripChars r4)
  pure (a, isKey, term)

/-- `RE_PLAYS = ^\s*plays\s+([\w-]+):([\w-]+)\s*([,;])`: returns
`(relation, role, terminator)`. -/
def matchPlays (l : List Char) : Option (String × String × Char) := do
  let r1 ← expectSeq "plays".data (lstripChars l)
  let r2 ← spaces1 r1
  let (relName, r3) ← takeName r2
  let r4 ← expectChar ':' r3
  let (roleName, r5) ← takeName r4
  let (term, _) ← takeTerm (lstripChars r5)
  pure (relName, roleName, term)

/-- `RE_RELATES = ^\s*relates\s+([\w-]+)\s*([,;])`: returns
`(role, terminator)`. -/
def matchRelates (l : List Char) : Option (String × Char) := do
  let r1 ← expectSeq "relates".data (lstripChars l)
  let r2 ← spaces1 r1
  let (roleName, r3) ← takeName r2
  let (term, _) ← takeTerm (lstripChars r3)
  pure (roleName, term)

/-- `RE_ABSTRACT = ^\s*abstract\s*([,;])`: returns the terminator. -/
def matchAbstract (l : List Char) : Option Char := do
  let r1 ← expectSeq "abstract".data (lstripChars l)
  let (term, _) ← takeTerm (lstripChars r1)
  pure term

/-- `RE_BARE_PLAYS = ^([\w-]+)\s+plays\s+([\w-]+):([\w-]+)\s*;`: returns
`(typename, relation, role)`. -/
def matchBarePlays (l : List Char) : Option (String × String × String) := do
  let (tname, r1) ← takeName l
  let r2 ← spaces1 r1
  let r3 ← expectSeq "plays".data r2
  let r4 ← spaces1 r3
  let (relName, r5) ← takeName r4
  let r6 ← expectChar ':' r5
  let (roleName, r7) ← takeName r6
  let _ ← expectChar ';' (lstripChars r7)
  pure (tname, relName, roleName)

/-- `RE_BARE_OWNS = ^([\w-]+)\s+owns\s+([\w-]+)(\s+@key)?\s*;`: returns
`(typename, attribute, is_key)`. -/
def matchBareOwns (l : List Char) : Option (String × String × Bool) := do
  let (tname, r1) ← takeName l
  let r2 ← spaces1 r1
  let r3 ← expectSeq "owns".data r2
  let r4 ← spaces1 r3
  let (a, r5) ← takeName r4
  let (isKey, r6) :=
    match spaces1 r5 >>= expectSeq "@key".data with
    | some r => (true, r)
    | none => (false, r5)
  let _ ← expectChar ';' (lstripChars r6)
  pure (tname, a, isKey)

-- ===========================================================================
-- The parser (`classify_type`, `parse_tql_file`) and the kind-resolution
-- pass (`_resolve_kinds`)
-- ===========================================================================

/-- `classify_type`: kind from the immediate parent name, `""` when the
parent is itself a user type (resolved later). -/
def classify_type (parent : String) : String :=
  if parent = "attribute" then "attribute"
  else if parent = "relation" then "relation"
  else if parent = "entity" then "entity"
  else ""

/-- The mutable locals of the main parse loop. -/
structure ParseState where
  model : SchemaModel
  currentSection : String
  commentBlock : List String
  deriving DecidableEq

/-- The multi-line body loop of a type declaration (source lines 291-364):
consume clause lines until one ends in `;`, deduplicating each recognized
clause against the typedef before appending, and return the updated typedef
with the unconsumed lines.  The trailing
`subline.strip().startswith("owns")` block of the source re-matches
`RE_OWNS` on a line on which it has already failed, so it can never fire;
it is dead code and contributes nothing here.  In Python the typedef is a
reference into the model mutated in place; since the body loop never reads
the model, threading the typedef and storing it afterwards is equivalent. -/
def parseBody (src : String) : TypeDef → List String → TypeDef × List String
  | td, [] => (td, [])
  | td, l :: rest =>
    let subline := (rstripStr l).data
    match matchAbstract subline with
    | some term =>
      let td := { td with is_abstract := true }
      if term = ';' then (td, rest) else parseBody src td rest
    | none =>
      match matchOwns subline with
      | some r =>
        let td :=
          if r.1 ∈ td.owns.map (fun o => o.attr) then td
          else { td with owns := td.owns ++ [⟨r.1, r.2.1, src⟩] }
        if r.2.2 = ';' then (td, rest) else parseBody src td rest
      | none =>
        match matchPlays subline with
        | some r =>
          let td :=
            if (r.1, r.2.1) ∈ td.plays.map (fun p => (p.relation, p.role)) then td
            else { td with plays := td.plays ++ [⟨r.1, r.2.1, src⟩] }
          if r.2.2 = ';' then (td, rest) else parseBody src td rest
        | none =>
          match matchRelates subline with
          | some r =>
            let td :=
              if r.1 ∈ td.relates.map (fun c => c.role) then td
              else { td with relates := td.relates ++ [⟨r.1, src⟩] }
            if r.2 = ';' then (td, rest) else parseBody src td rest
          | none => parseBody src td rest

/-- The guard of the 3-line section-header pattern: `_is_separator(i)` and
`i + 2 < len(lines)` and `_is_separator(i + 2)`. -/
def isSectionHeaderAt (l : String) (rest : List String) : Bool :=
  isSeparatorLine (rstripStr l).data &&
    (match rest with
     | _ :: l2 :: _ => isSeparatorLine (rstripStr l2).data
     | _ => false)

/-- The main `while` loop of `parse_tql_file`, with the recognized line
classes tried in the source priority order.  Fueled: every iteration
consumes at least one input line (the section-header branch three, the
type-declaration branch one plus what `parseBody` consumes), so with fuel
`lines.length + 1` the fuel is never exhausted. -/
def parseLoop (src : String) : Nat → List String → ParseState → ParseState
  | 0, _, st => st
  | Nat.succ _, [], st => st
  | Nat.succ f, l :: rest, st =>
    let line := (rstripStr l).data
    -- section header block: separator / title / separator, consuming 3 lines
    if isSectionHeaderAt l rest then
      match rest with
      | l1 :: _ :: rest3 =>
        let st :=
          match matchSectionTitle (rstripStr l1).data with
          | some grp =>
            let candidate := String.mk (stripChars grp)
            if candidate.length > 3 && !(strContains candidate "END") then
              { st with currentSection := candidate }
            else st
          | none => st
        parseLoop src f rest3 st
      | _ => st
    -- standalone separator line
    else if isSeparatorLine line then
      parseLoop src f rest st
    else
      match matchComment line with
      | some grp =>
        let text := String.mk (stripChars grp)
        let st := if text = "" then st else { st with commentBlock := st.commentBlock ++ [text] }
        parseLoop src f rest st
      | none =>
        let lineStripped := String.mk (stripChars line)
        if lineStripped = "" || lineStripped = "define" then
          let st := if lineStripped = "" then { st with commentBlock := [] } else st
          parseLoop src f rest st
        else
          match matchAttributeDef line with
          | some (name, vt) =>
            let m :=
              if st.model.containsName name then st.model
              else
                st.model.insertOrUpdate name
                  { name := name, kind := "attribute", parent := "attribute",
                    value_type := vt, defined_in := src,
                    comment := if st.commentBlock = [] then "" else joinSpace st.commentBlock,
                    sectionLabel := st.currentSection }
            parseLoop src f rest { st with model := m, commentBlock := [] }
          | none =>
            match matchBarePlays line with
            | some (tname, relName, roleName) =>
              let m :=
                match st.model.find? tname with
                | some td =>
                  st.model.insertOrUpdate tname
                    { td with plays := td.plays ++ [⟨relName, roleName, src⟩] }
                | none =>
                  -- placeholder creation; the source appends to the fresh
                  -- typedef empty plays list right after inserting it
                  st.model.insertOrUpdate tname
                    { name := tname, kind := "entity", defined_in := src,
                      plays := [⟨relName, roleName, src⟩] }
              parseLoop src f rest { st with model := m, commentBlock := [] }
            | none =>
              match matchBareOwns line with
              | some (tname, a, isKey) =>
                let m :=
                  match st.model.find? tname with
                  | some td =>
                    st.model.insertOrUpdate tname
                      { td with owns := td.owns ++ [⟨a, isKey, src⟩] }
                  | none => st.model
                parseLoop src f rest { st with model := m, commentBlock := [] }
              | none =>
                match matchTypeStart line with
                | some (name, parent, term, restOfLine) =>
                  let td :=
                    match st.model.find? name with
                    | some existing => existing
                    | none =>
                      { name := name, kind := classify_type parent, parent := parent,
                        defined_in := src,
                        comment := if st.commentBlock = [] then ""
                                   else joinSpace st.commentBlock,
                        sectionLabel := st.currentSection }
                  let td :=
                    if containsSeq "abstract".data restOfLine then
                      { td with is_abstract := true }
                    else td
                  if term = ';' then
                    parseLoop src f rest
                      { st with model := st.model.insertOrUpdate name td, commentBlock := [] }
                  else
                    let r := parseBody src td rest
                    parseLoop src f r.2
                      { st with model := st.model.insertOrUpdate name r.1, commentBlock := [] }
                | none =>
                  -- unrecognized line: skipped, comment buffer cleared
                  parseLoop src f rest { st with commentBlock := [] }

/-- The inner `while` loop of `_resolve_kinds`: walk the parent chain of one
type and compute the kind it is assigned — the kind of the nearest ancestor
whose kind is already determined, or the `"entity"` fallback when the walk
exits on an empty or unknown parent.  The source collects a `chain` list but
never consults it (a dead variable), so there is no cycle guard: on a cycle
of unresolved kinds the Python loop never exits.  The fueled embedding
returns `none` in exactly that case: on terminating runs the visited names
are pairwise distinct keys of the model (a repeated name with unresolved
kind would loop forever), so fuel `m.types.length + 2` only runs out when
the Python loop diverges. -/
def kindWalk (m : SchemaModel) : String → Nat → Option String
  | _, 0 => none
  | current, Nat.succ f =>
    if current = "" then some "entity"
    else
      match m.find? current with
      | none => some "entity"
      | some td => if td.kind = "" then kindWalk m td.parent f else some td.kind

/-- The `for name, typedef in model.types.items()` loop of `_resolve_kinds`.
Each iteration mutates only the typedef it is visiting, so re-reading the
entry from the evolving model is equivalent to Python in-place mutation
during dict iteration.  The `none` branch of the lookup is unreachable
(`names` are exactly the keys and keys are never removed). -/
def resolveGo : List String → SchemaModel → Option SchemaModel
  | [], m => some m
  | n :: rest, m =>
    match m.find? n with
    | none => resolveGo rest m
    | some td =>
      if td.kind = "" then
        match kindWalk m td.parent (m.types.length + 2) with
        | none => none
        | some k => resolveGo rest (m.insertOrUpdate n { td with kind := k })
      else resolveGo rest m

/-- `_resolve_kinds`; `none` models divergence of the pass. -/
def resolve_kinds (m : SchemaModel) : Option SchemaModel :=
  resolveGo (m.types.map Prod.fst) m

/-- `filepath.stem` normalization at the top of `parse_tql_file`. -/
def sourceNameOfStem (stem : String) : String :=
  if stem = "alhazen_notebook" then "core" else stem

/-- `parse_tql_file` on one already-read file: `src` is the normalized stem,
`fileLines` the result of `read_text().splitlines()`, `m` the shared model
being merged into.  `none` models divergence of the trailing
`_resolve_kinds` pass. -/
def parse_tql_file (src : String) (fileLines : List String) (m : SchemaModel) :
    Option SchemaModel :=
  resolve_kinds
    (parseLoop src (fileLines.length + 1) fileLines
      { model := m, currentSection := "", commentBlock := [] }).model

-- ===========================================================================
-- Namespace classifier (`types_in_namespace`)
-- ===========================================================================

/-- `kind_order.get(t.kind, 9)`. -/
def kindOrderOf (k : String) : Nat :=
  if k = "attribute" then 0
  else if k = "entity" then 1
  else if k = "relation" then 2
  else 9

/-- Lexicographic code-point order on strings (Python `<` on `str`). -/
def charListLt : List Char → List Char → Bool
  | [], [] => false
  | [], _ :: _ => true
  | _ :: _, [] => false
  | a :: as, b :: bs => a < b || (a = b && charListLt as bs)

def strLt (s t : String) : Bool := charListLt s.data t.data

/-- Strict order on the sort key `(kind_order, name)` of
`types_in_namespace`. -/
def typeKeyLt (a b : TypeDef) : Bool :=
  kindOrderOf a.kind < kindOrderOf b.kind ||
  (kindOrderOf a.kind = kindOrderOf b.kind && strLt a.name b.name)

/-- Stable insertion (an element is placed before the first existing element
that is not strictly below it), matching Python stable `sorted`. -/
def insSorted {α : Type} (lt : α → α → Bool) (x : α) : List α → List α
  | [] => [x]
  | y :: ys => if lt y x then y :: insSorted lt x ys else x :: y :: ys

/-- Stable sort by a strict key order (Python `sorted(..., key=...)`). -/
def stableSort {α : Type} (lt : α → α → Bool) : List α → List α
  | [] => []
  | x :: xs => insSorted lt x (stableSort lt xs)

/-- `types_in_namespace`: the types with `defined_in == ns` in model
(insertion) order, sorted by kind rank then name. -/
def types_in_namespace (m : SchemaModel) (ns : String) : List TypeDef :=
  stableSort typeKeyLt ((m.types.map Prod.snd).filter fun t => t.defined_in = ns)

-- ===========================================================================
-- Mermaid generators
-- ===========================================================================

/-- `_MERMAID_RESERVED` (membership-tested only). -/
def mermaidReserved : List String :=
  ["note", "class", "end", "style", "click", "callback",
   "link", "direction", "subgraph", "section"]

/-- `_mermaid_safe`. -/
def mermaid_safe (name : String) : String :=
  let safe := String.mk (name.data.map fun c => if c = '-' then '_' else c)
  if safe ∈ mermaidReserved then safe ++ "_t" else safe

/-- The player-collection loop of `generate_er_diagram` for one
`(relation, role)` pair: scan every type of the model in order; an entity
contributes its name once per matching direct `PlaysClause`; additionally,
for a non-core namespace and a type defined in that namespace, the name is
appended once more when `get_inherited_plays` surfaces a matching pair and
the name is not yet listed.  `none` models the `KeyError` raised by
`get_inherited_plays` when a scanned type `name` is not a key. -/
def playersGo (m : SchemaModel) (ns relName roleName : String) :
    List (String × TypeDef) → List String → Option (List String)
  | [], acc => some acc
  | (_, t) :: rest, acc =>
    if t.kind = "entity" then
      let acc1 := acc ++ (t.plays.filter fun p =>
        p.relation = relName && p.role = roleName).map fun _ => t.name
      if ns ≠ "core" ∧ t.defined_in = ns then
        match m.get_inherited_plays t.name with
        | none => none
        | some inh =>
          let acc2 := inh.foldl (fun a pr =>
            if pr.1.relation = relName ∧ pr.1.role = roleName ∧ t.name ∉ a then
              a ++ [t.name]
            else a) acc1
          playersGo m ns relName roleName rest acc2
      else playersGo m ns relName roleName rest acc1
    else playersGo m ns relName roleName rest acc

/-- The `players` list for one role of one relation. -/
def playersForRole (m : SchemaModel) (ns relName roleName : String) :
    Option (List String) :=
  playersGo m ns relName roleName m.types []

/-- First-occurrence deduplication (the key set of the `role_players` dict:
a duplicate `relates` role keeps its first position and its recomputed —
identical — player list). -/
def dedupAcc (acc : List String) : List String → List String
  | [] => []
  | x :: xs => if x ∈ acc then dedupAcc acc xs else x :: dedupAcc (x :: acc) xs

def dedupFirst (l : List String) : List String := dedupAcc [] l

/-- The `role_players` dict of one relation, as an ordered list. -/
def rolePlayersOf (m : SchemaModel) (ns : String) (rel : TypeDef) :
    Option (List (String × List String)) :=
  (dedupFirst (rel.relates.map fun c => c.role)).mapM fun r =>
    (playersForRole m ns rel.name r).map fun ps => (r, ps)

/-- An emitted edge as the raw `(left_player, right_player, relation_name)`
triple keyed in `seen_edges` (node sanitization happens only at render
time). -/
abbrev Edge := String × String × String

/-- Innermost loop: one left player against every right player.  An edge
already seen in either orientation is skipped; otherwise its key is added
and the edge emitted.  Returns `(emitted, seen_after)`. -/
def emitInner (relName lp : String) : List String → List Edge → List Edge × List Edge
  | [], seen => ([], seen)
  | rp :: rest, seen =>
    if (lp, rp, relName) ∈ seen ∨ (rp, lp, relName) ∈ seen then
      emitInner relName lp rest seen
    else
      let r := emitInner relName lp rest ((lp, rp, relName) :: seen)
      ((lp, rp, relName) :: r.1, r.2)

/-- Loop over the left players of one role pair. -/
def emitLeft (relName : String) : List String → List String → List Edge →
    List Edge × List Edge
  | [], _, seen => ([], seen)
  | lp :: rest, rps, seen =>
    let r1 := emitInner relName lp rps seen
    let r2 := emitLeft relName rest rps r1.2
    (r1.1 ++ r2.1, r2.2)

/-- The `(ri, rj)` index pairs with `ri < rj`, in loop order. -/
def rolePairs {α : Type} : List α → List (α × α)
  | [] => []
  | x :: xs => xs.map (fun y => (x, y)) ++ rolePairs xs

/-- Loop over all role pairs of one relation (the `len(roles) >= 2` guard of
the source is subsumed: fewer than two roles yield no pairs). -/
def emitForPairs (relName : String) :
    List ((String × List String) × (String × List String)) → List Edge →
    List Edge × List Edge
  | [], seen => ([], seen)
  | pr :: rest, seen =>
    let r1 := emitLeft relName pr.1.2 pr.2.2 seen
    let r2 := emitForPairs relName rest r1.2
    (r1.1 ++ r2.1, r2.2)

/-- The relation list of the diagram, with the optional section filter. -/
def relationsOf (m : SchemaModel) (ns : String) (filt : Option String) :
    List TypeDef :=
  let rels := (types_in_namespace m ns).filter fun t => t.kind = "relation"
  match filt with
  | none => rels
  | some sf => rels.filter fun r => strContains (lowerStr r.sectionLabel) (lowerStr sf)

/-- Loop over the relations; `seen_edges` is shared across relations. -/
def erEdgesGo (m : SchemaModel) (ns : String) :
    List TypeDef → List Edge → Option (List Edge × List Edge)
  | [], seen => some ([], seen)
  | rel :: rest, seen =>
    match rolePlayersOf m ns rel with
    | none => none
    | some rp =>
      let r1 := emitForPairs rel.name (rolePairs rp) seen
      match erEdgesGo m ns rest r1.2 with
      | none => none
      | some r2 => some (r1.1 ++ r2.1, r2.2)

/-- All edges of the relationship diagram, in emission order. -/
def erEdges (m : SchemaModel) (ns : String) (filt : Option String) :
    Option (List Edge) :=
  (erEdgesGo m ns (relationsOf m ns filt) []).map Prod.fst

/-- Rendering of one emitted edge: four spaces, the sanitized left player,
the crow-foot connector, the sanitized right player, a colon and the
sanitized relation name (the f-string at source line 546). -/
def renderEdge (e : Edge) : String :=
  "    " ++ mermaid_safe e.1 ++ " \x7d|--o\x7b " ++ mermaid_safe e.2.1 ++ " : " ++
    mermaid_safe e.2.2

/-- `generate_er_diagram`. -/
def generate_er_diagram (m : SchemaModel) (ns : String) (filt : Option String) :
    Option String :=
  (erEdges m ns filt).map fun es => joinLines ("erDiagram" :: es.map renderEdge)

-- ===========================================================================
-- Class diagram (`generate_class_diagram`)
-- ===========================================================================

/-- The root kind names (`("entity", "relation", "attribute")` tuple tests of
the source). -/
def rootKinds : List String := ["entity", "relation", "attribute"]

/-- The entity/relation nodes of a namespace class diagram. -/
def entityTypesOf (m : SchemaModel) (ns : String) : List TypeDef :=
  (types_in_namespace m ns).filter fun t => t.kind = "entity" || t.kind = "relation"

/-- The lines emitted for one node of the class diagram: class block with up
to five direct attributes, abstract stereotype, inheritance arrow. -/
def classLinesFor (td : TypeDef) : List String :=
  let safe := mermaid_safe td.name
  let own_attrs := (td.owns.take 5).map fun o => o.attr
  let l1 :=
    if own_attrs ≠ [] then
      ("    class " ++ safe ++ " \x7b") ::
        (own_attrs.map fun a => "        +" ++ a) ++ ["    \x7d"]
    else ["    class " ++ safe]
  let l2 := if td.is_abstract then l1 ++ ["    <<abstract>> " ++ safe] else l1
  if td.parent ≠ "" ∧ td.parent ∉ rootKinds then
    l2 ++ ["    " ++ mermaid_safe td.parent ++ " <|-- " ++ safe]
  else l2

/-- The contents of the `external_parents` set, in first-insertion order
(the set is populated inside the node loop). -/
def externalParentsGo (m : SchemaModel) (ns : String) :
    List TypeDef → List String → List String
  | [], acc => acc
  | td :: rest, acc =>
    let acc :=
      if td.parent ≠ "" ∧ td.parent ∉ rootKinds then
        match m.find? td.parent with
        | some ptd =>
          if ptd.defined_in ≠ ns ∧ td.parent ∉ acc then acc ++ [td.parent] else acc
        | none => acc
      else acc
    externalParentsGo m ns rest acc

def externalParentsList (m : SchemaModel) (ns : String) : List String :=
  externalParentsGo m ns (entityTypesOf m ns) []

/-- The trailing external-parent stub nodes, for a given enumeration order of
the set.  `none` models the `KeyError` of `model.types[ext]` (unreachable
when the order enumerates the computed set, whose members are keys). -/
def classExtLines (m : SchemaModel) (ns : String) : List String → Option (List String)
  | [] => some []
  | ext :: rest =>
    match m.find? ext with
    | none => none
    | some td =>
      (classExtLines m ns rest).map fun ls =>
        ("    class " ++ mermaid_safe ext) ::
          ("    <<" ++ td.defined_in ++ ">> " ++ mermaid_safe ext) :: ls

/-- `generate_class_diagram`, parameterized by the enumeration order of the
`external_parents` set: iteration order of a Python `set` of strings is not
specified (it varies with the interpreter hash seed across process runs),
so it is an explicit argument here. -/
def generateClassDiagramWith (m : SchemaModel) (ns : String)
    (extOrder : List String) : Option String :=
  (classExtLines m ns extOrder).map fun extLs =>
    joinLines (["classDiagram", "    direction LR"] ++
      ((entityTypesOf m ns).map classLinesFor).flatten ++ extLs)

/-- `generate_class_diagram` with one particular (first-insertion) set
order. -/
def generate_class_diagram (m : SchemaModel) (ns : String) : Option String :=
  generateClassDiagramWith m ns (externalParentsList m ns)

-- ===========================================================================
-- Markdown generators (`generate_type_table`, `generate_namespace_page`)
-- ===========================================================================

/-- The `parent_display` expression of `generate_type_table`. -/
def parentDisplay (td : TypeDef) : String :=
  if td.parent ≠ "" ∧ td.parent ∉ rootKinds then "`" ++ td.parent ++ "`"
  else td.parent

/-- `generate_type_table`; `none` models the `KeyError` of the inherited
lookups when `td.name` is not a key of the model. -/
def generate_type_table (m : SchemaModel) (td : TypeDef) : Option String := do
  let inhOwns ← m.get_inherited_owns td.name
  let inhPlays ← m.get_inherited_plays td.name
  let l1 : List String := ["### `" ++ td.name ++ "`", ""]
  let l2 := if td.comment ≠ "" then l1 ++ ["> " ++ td.comment, ""] else l1
  let l3 := l2 ++ ["- **Kind:** " ++ capitalizeStr td.kind,
                   "- **Parent:** " ++ parentDisplay td]
  let l4 := if td.is_abstract then l3 ++ ["- **Abstract:** Yes"] else l3
  let l5 :=
    if td.value_type ≠ "" then l4 ++ ["- **Value type:** `" ++ td.value_type ++ "`"]
    else l4
  let l6 := l5 ++ ["- **Defined in:** `" ++ td.defined_in ++ "`", ""]
  let all_owns := td.owns.map fun o => (o, td.defined_in)
  let l7 :=
    if all_owns ≠ [] ∨ inhOwns ≠ [] then
      l6 ++ ["**Attributes (owns):**", "", "| Attribute | Key? | Defined In |",
             "|-----------|------|------------|"] ++
        (all_owns.map fun os =>
          "| `" ++ os.1.attr ++ "` | " ++ (if os.1.is_key then "@key" else "") ++
            " | " ++ os.2 ++ " |") ++
        (inhOwns.map fun os =>
          "| `" ++ os.1.attr ++ "` | " ++ (if os.1.is_key then "@key" else "") ++
            " | *" ++ os.2 ++ "* (inherited) |") ++ [""]
    else l6
  let all_plays := td.plays.map fun p => (p, td.defined_in)
  let l8 :=
    if all_plays ≠ [] ∨ inhPlays ≠ [] then
      l7 ++ ["**Roles (plays):**", "", "| Relation | Role | Defined In |",
             "|----------|------|------------|"] ++
        (all_plays.map fun ps =>
          "| `" ++ ps.1.relation ++ "` | `" ++ ps.1.role ++ "` | " ++ ps.2 ++ " |") ++
        (inhPlays.map fun ps =>
          "| `" ++ ps.1.relation ++ "` | `" ++ ps.1.role ++ "` | *" ++ ps.2 ++
            "* (inherited) |") ++ [""]
    else l7
  let l9 :=
    if td.relates ≠ [] then
      l8 ++ ["**Roles (relates):**", "", "| Role |", "|------|"] ++
        (td.relates.map fun r => "| `" ++ r.role ++ "` |") ++ [""]
    else l8
  pure (joinLines l9)

/-- `NAMESPACE_META` as `(title, description, file)` per namespace key;
`none` models the `KeyError` of `NAMESPACE_META[ns]`. -/
def namespaceMeta (ns : String) : Option (String × String × String) :=
  if ns = "core" then
    some ("Core Schema",
      "The foundational Alhazen Notebook Model \u2014 five ICE subtypes, agents, classification, and provenance.",
      "alhazen_notebook.tql")
  else if ns = "scilit" then
    some ("Scientific Literature (scilit)",
      "Domain-specific subtypes for scientific literature analysis: papers, datasets, preprints, and structured extraction.",
      "namespaces/scilit.tql")
  else if ns = "jobhunt" then
    some ("Job Hunting (jobhunt)",
      "Job hunting and career management: positions, companies, skill gaps, learning resources, and application tracking.",
      "namespaces/jobhunt.tql")
  else if ns = "apm" then
    some ("Algorithm for Precision Medicine (apm)",
      "Rare disease investigation following Matt Might\u0027s APM: diagnostic phase (symptoms \u2192 molecular diagnosis) and therapeutic phase (mechanism \u2192 treatment).",
      "namespaces/apm.tql")
  else none

/-- One entry of the query-examples JSON document. -/
structure QueryExample where
  title : String
  command : Option String
  query : String
  deriving DecidableEq

/-- One titled section of query examples. -/
structure QuerySection where
  title : String
  description : Option String
  examples : List QueryExample
  deriving DecidableEq

/-- Generic association lookup (the query-examples dict). -/
def assocFind? {α : Type} (l : List (String × α)) (n : String) : Option α :=
  match l with
  | [] => none
  | (k, v) :: rest => if k = n then some v else assocFind? rest n

/-- Python truthiness of `section.get("description")` / `ex.get("command")`:
the key is present with a nonempty value. -/
def truthyOpt (s : Option String) : Bool :=
  match s with
  | none => false
  | some x => x ≠ ""

/-- The lines of the trailing query-examples section. -/
def queryExampleLines (sections : List QuerySection) : List String :=
  (sections.map fun s =>
    ["### " ++ s.title, ""] ++
      (if truthyOpt s.description then [s.description.getD "", ""] else []) ++
      (s.examples.map fun ex =>
        ["**" ++ ex.title ++ "**"] ++
          (if truthyOpt ex.command then ["*Used by:* `" ++ ex.command.getD "" ++ "`"]
           else []) ++
          ["", "```typeql", ex.query, "```", ""]).flatten).flatten

/-- `generate_namespace_page`, parameterized like `generateClassDiagramWith`
by the enumeration order of the class diagram `external_parents` set. -/
def generateNamespacePageWith (m : SchemaModel) (ns : String)
    (qex : List (String × List QuerySection)) (extOrder : List String) :
    Option String := do
  let meta ← namespaceMeta ns
  let l0 := ["# " ++ meta.1, "", "> **Source:** `" ++ meta.2.2 ++ "`", "",
             meta.2.1, ""]
  let ns_types := types_in_namespace m ns
  let entities := ns_types.filter fun t => t.kind = "entity"
  let relations := ns_types.filter fun t => t.kind = "relation"
  let attributes := ns_types.filter fun t => t.kind = "attribute"
  let l1 := l0 ++ ["**Summary:** " ++ toString entities.length ++ " entities, " ++
    toString relations.length ++ " relations, " ++ toString attributes.length ++
    " attributes", ""]
  let l2 := l1 ++ ["## Contents", "", "- [Type Hierarchy](#type-hierarchy)",
                   "- [Relationships](#relationships)"]
  let l3 := if attributes ≠ [] then l2 ++ ["- [Attributes](#attributes)"] else l2
  let l4 := l3 ++ ["- [Entity Types](#entity-types)"]
  let l5 := if relations ≠ [] then l4 ++ ["- [Relation Types](#relation-types)"] else l4
  let l6 :=
    if (assocFind? qex ns).isSome then l5 ++ ["- [Query Examples](#query-examples)"]
    else l5
  let l7 := l6 ++ [""]
  let classDiagram ← generateClassDiagramWith m ns extOrder
  let l8 := l7 ++ ["## Type Hierarchy", "", "```mermaid", classDiagram, "```", ""]
  let l8b := l8 ++ ["## Relationships", ""]
  let l9 ←
    if ns = "apm" ∧ relations.length > 8 then do
      let d1 ← generate_er_diagram m ns (some "Diagnostic")
      let d2 ← generate_er_diagram m ns (some "Therapeutic")
      pure (l8b ++ ["### Diagnostic Phase", "", "```mermaid", d1, "```", "",
                    "### Therapeutic Phase", "", "```mermaid", d2, "```", ""])
    else do
      let d ← generate_er_diagram m ns none
      pure (l8b ++ ["```mermaid", d, "```", ""])
  let l10 :=
    if attributes ≠ [] then
      l9 ++ ["## Attributes", "", "| Attribute | Value Type | Description |",
             "|-----------|-----------|-------------|"] ++
        (attributes.map fun t =>
          "| `" ++ t.name ++ "` | `" ++ t.value_type ++ "` | " ++
            (if t.comment ≠ "" then String.mk (t.comment.data.take 80) else "") ++
            " |") ++ [""]
    else l9
  let l11 := l10 ++ ["## Entity Types", ""]
  let entTables ← entities.mapM (generate_type_table m)
  let l12 := l11 ++ entTables
  let l13 ←
    if relations ≠ [] then do
      let relTables ← relations.mapM (generate_type_table m)
      pure (l12 ++ ["## Relation Types", ""] ++ relTables)
    else pure l12
  let l14 :=
    match assocFind? qex ns with
    | none => l13
    | some sections => l13 ++ ["## Query Examples", ""] ++ queryExampleLines sections
  pure (joinLines l14)

/-- `generate_namespace_page` with one particular (first-insertion) order of
the `external_parents` set. -/
def generate_namespace_page (m : SchemaModel) (ns : String)
    (qex : List (String × List QuerySection)) : Option String :=
  generateNamespacePageWith m ns qex (externalParentsList m ns)

-- ===========================================================================
-- Concrete instances referenced by counterexamples
-- ===========================================================================

/-- The model produced by parsing `a sub b;` / `a plays R:r1;` /
`zz owns w;`: only `a` is a key. -/
def parentlessModel : SchemaModel :=
  ⟨[("a", { name := "a", kind := "entity", parent := "b",
            plays := [⟨"R", "r1", "f"⟩], defined_in := "f" })]⟩

/-- The model produced by two identical bare-plays statements: the second
append is not deduplicated. -/
def dupPlaysModel : SchemaModel :=
  ⟨[("g", { name := "g", kind := "entity",
            plays := [⟨"r", "x", "f"⟩, ⟨"r", "x", "f"⟩], defined_in := "f" })]⟩

/-- The model produced by a declaration body `owns a;` followed by a bare
`g owns a;` extension: a duplicated direct `owns`. -/
def dupOwnsModel : SchemaModel :=
  ⟨[("g", { name := "g", kind := "entity", parent := "entity",
            owns := [⟨"a", false, "f"⟩, ⟨"a", false, "f"⟩],
            defined_in := "f" })]⟩

/-- A model whose parent links form a two-cycle of unresolved kinds. -/
def cyclicM : SchemaModel :=
  ⟨[("a", { name := "a", kind := "", parent := "b" }),
    ("b", { name := "b", kind := "", parent := "a" })]⟩

/-- The two-file scenario of C3: a subtype whose parent is only declared
(with a determined kind) in a later file.  The entity fallback assigned
when the first file finishes parsing is never revisited. -/
def staleKindModel : SchemaModel :=
  ⟨[("t", { name := "t", kind := "entity", parent := "p", defined_in := "f1" }),
    ("p", { name := "p", kind := "relation", parent := "relation",
            defined_in := "f2" })]⟩

/-- The model of the C6 counterexample: in namespace `scilit`, `t` inherits
`R:a` from `par`, an ancestor declared in `scilit` itself (not in the root
namespace). -/
def inhPlaysModel : SchemaModel :=
  ⟨[("R", { name := "R", kind := "relation", parent := "relation",
            relates := [⟨"a", "scilit"⟩, ⟨"b", "scilit"⟩], defined_in := "scilit" }),
    ("par", { name := "par", kind := "entity", parent := "entity",
              plays := [⟨"R", "a", "scilit"⟩], defined_in := "scilit" }),
    ("t", { name := "t", kind := "entity", parent := "par", defined_in := "scilit" }),
    ("q", { name := "q", kind := "entity", parent := "entity",
            plays := [⟨"R", "b", "scilit"⟩], defined_in := "scilit" })]⟩

/-- The model of the C7 counterexample: the distinct type names `p-q` and
`p_q` sanitize to the same Mermaid identifier `p_q`. -/
def collideModel : SchemaModel :=
  ⟨[("r", { name := "r", kind := "relation", parent := "relation",
            relates := [⟨"a", "core"⟩, ⟨"b", "core"⟩], defined_in := "core" }),
    ("p-q", { name := "p-q", kind := "entity", parent := "entity",
              plays := [⟨"r", "a", "core"⟩], defined_in := "core" }),
    ("p_q", { name := "p_q", kind := "entity", parent := "entity",
              plays := [⟨"r", "a", "core"⟩], defined_in := "core" }),
    ("z", { name := "z", kind := "entity", parent := "entity",
            plays := [⟨"r", "b", "core"⟩], defined_in := "core" })]⟩

/-- The model of the C9 counterexample: namespace `scilit` has two external
parents, so the `external_parents` set of the class diagram has two elements. -/
def twoParentModel : SchemaModel :=
  ⟨[("p1", { name := "p1", kind := "entity", parent := "entity", defined_in := "core" }),
    ("p2", { name := "p2", kind := "entity", parent := "entity", defined_in := "core" }),
    ("c1", { name := "c1", kind := "entity", parent := "p1", defined_in := "scilit" }),
    ("c2", { name := "c2", kind := "entity", parent := "p2", defined_in := "scilit" })]⟩

/-- The role-filling condition exactly as claim C6 words it (the spec-side
definition, for comparison with the embedded `playersGo`): a direct
`PlaysClause`, or — for a non-root namespace and a type declared in it — a
matching inherited pair surfaced via an ancestor declared in the root
namespace `core`. -/
def specRoleFillerViaRoot (m : SchemaModel) (ns relName roleName tname : String) :
    Bool :=
  match m.find? tname with
  | none => false
  | some td =>
    td.kind = "entity" &&
      ((td.plays.any fun p => p.relation = relName && p.role = roleName) ||
       ((ns != "core") && td.defined_in = ns &&
         (match m.get_inherited_plays tname with
          | none => false
          | some inh => inh.any fun pr =>
              pr.1.relation = relName && pr.1.role = roleName &&
                (match m.find? pr.2 with
                 | some atd => atd.defined_in = "core"
                 | none => false))))

/-- The placeholder `TypeDef` created for the subject of a bare-plays
statement, carrying the appended clause. -/
def barePlaysPlaceholder (src relName roleName : String) (tname : String) : TypeDef :=
  { name := tname, kind := "entity", defined_in := src,
    plays := [⟨relName, roleName, src⟩] }

/-- `WalkTo m c k`: the `_resolve_kinds` inner walk started at `c` over model
`m` terminates with kind `k` — i.e. `k` is the kind of the nearest ancestor
of the chain with a determined kind, or `"entity"` when the chain exits on
an empty or unknown parent. -/
def WalkTo (m : SchemaModel) (c k : String) : Prop :=
  ∃ f, kindWalk m c f = some k

/-- Relation between an entry of the original model and the corresponding
entry of a partially resolved model: untouched, or its kind replaced by the
walk result over the original model. -/
def EntryRel (m₀ : SchemaModel) (td₀ td : TypeDef) : Prop :=
  td = td₀ ∨
    (td₀.kind = "" ∧ ∃ k, k ≠ "" ∧ WalkTo m₀ td₀.parent k ∧ td = { td₀ with kind := k })

/-- Invariant of the resolution pass relative to the original model. -/
def ResolveInv (m₀ m : SchemaModel) : Prop :=
  (∀ n, m.find? n = none ↔ m₀.find? n = none) ∧
  (∀ n td, m.find? n = some td → ∃ td₀, m₀.find? n = some td₀ ∧ EntryRel m₀ td₀ td)

/-- A two-type model before kind resolution: `t` unresolved under `p`. -/
def preResolveModel : SchemaModel :=
  ⟨[("t", ⟨"t", "", "p", false, "", [], [], [], "f1", "", ""⟩),
    ("p", ⟨"p", "relation", "relation", false, "", [], [], [], "f2", "", ""⟩)]⟩

/-- The same model after kind resolution. -/
def postResolveModel : SchemaModel :=
  ⟨[("t", ⟨"t", "relation", "p", false, "", [], [], [], "f1", "", ""⟩),
    ("p", ⟨"p", "relation", "relation", false, "", [], [], [], "f2", "", ""⟩)]⟩

/-- Duplicate-freedom of one `TypeDef` clause lists, keyed as the source
deduplicates them: owns by attribute, plays by `(relation, role)`, relates
by role. -/
def tdNodup (td : TypeDef) : Prop :=
  (td.owns.map fun o => o.attr).Nodup ∧
  (td.plays.map fun p => (p.relation, p.role)).Nodup ∧
  (td.relates.map fun r => r.role).Nodup

instance tdNodupDecidable (td : TypeDef) : Decidable (tdNodup td) := by
  unfold tdNodup
  infer_instance

/-- The reversed orientation of an edge. -/
def swapE (e : Edge) : Edge := (e.2.1, e.1, e.2.2)

/-- Two edges connect different unordered node pairs or carry different
relation names. -/
def edgeUndirNe (e1 e2 : Edge) : Prop := ¬ (e2 = e1 ∨ e2 = swapE e1)

-- ===========================================================================
-- Claim theorems
-- ===========================================================================

/-- C10: for a name that is not a key of the model, `get_inherited_owns` and
`get_inherited_plays` raise `KeyError` (here: return `none`), while
`get_ancestors` returns the empty list without raising. -/
theorem claim10_unknown_name_behavior (m : SchemaModel) (name : String)
    (h : m.find? name = none) :
    m.get_inherited_owns name = none ∧ m.get_inherited_plays name = none ∧
      m.get_ancestors name = [] := by
  refine ⟨?_, ?_, ?_⟩
  · simp [SchemaModel.get_inherited_owns, h]
  · simp [SchemaModel.get_inherited_plays, h]
  · show ancestorsGo m name [] [] (m.types.length + 2) = []
    show ancestorsGo m name [] [] (Nat.succ (m.types.length + 1)) = []
    simp [ancestorsGo, h]

/-- C10 witness: the unknown name `z` on the empty model. -/
theorem claim10_unknown_name_behavior_witness :
    emptyModel.find? "z" = none ∧
      (emptyModel.get_inherited_owns "z" = none ∧
        emptyModel.get_inherited_plays "z" = none ∧
        emptyModel.get_ancestors "z" = []) :=
  ⟨by decide, claim10_unknown_name_behavior emptyModel "z" (by decide)⟩

/-- C1 counterexample: after parsing `a sub b;`, `a plays R:r1;`,
`zz owns w;`, the parent name `b`, the plays-relation name `R`, and the
bare-owns subject `zz` are all absent from the model — no placeholder
`TypeDefinition` exists for any of them, contradicting the claim (only a
bare-plays subject would have been materialized). -/
theorem claim1_counterexample :
    parse_tql_file "f" ["a sub b;", "a plays R:r1;", "zz owns w;"] emptyModel =
        some parentlessModel ∧
      (parentlessModel.find? "a").map (fun td => td.parent) = some "b" ∧
      (parentlessModel.find? "a").map (fun td => td.plays.map fun p => p.relation) =
        some ["R"] ∧
      parentlessModel.find? "b" = none ∧
      parentlessModel.find? "R" = none ∧
      parentlessModel.find? "zz" = none := by
  decide

/-- C2 counterexample: two identical bare-plays extension statements append
the same `(relation, role)` pair twice to the same `TypeDefinition` — the
bare-extension append path performs no duplicate check. -/
theorem claim2_counterexample :
    parse_tql_file "f" ["g plays r:x;", "g plays r:x;"] emptyModel =
        some dupPlaysModel ∧
      (dupPlaysModel.find? "g").map (fun td => td.plays.map fun p => (p.relation, p.role)) =
        some [("r", "x"), ("r", "x")] ∧
      ¬ ([("r", "x"), ("r", "x")] : List (String × String)).Nodup := by
  refine ⟨by decide, by decide, by decide⟩

/-- On the two-cycle of unresolved kinds, the kind-resolution walk makes no
progress regardless of fuel: the source loop (whose dead `chain` list never
feeds a guard) runs forever. -/
theorem cyclic_kindWalk_none (n : Nat) :
    kindWalk cyclicM "a" n = none ∧ kindWalk cyclicM "b" n = none := by
  induction n with
  | zero => exact ⟨rfl, rfl⟩
  | succ n ih =>
    constructor
    · show kindWalk cyclicM "b" n = none
      exact ih.2
    · show kindWalk cyclicM "a" n = none
      exact ih.1

/-- C4: on a model whose parent links form a cycle, `get_ancestors` does
terminate (its `seen` guard bails out at the first revisited name, so the
result is stable under any additional fuel), but the inner walk of
`_resolve_kinds` never terminates — its `chain` list is dead code and there
is no cycle guard, so the pass diverges (`none` in this embedding) instead
of terminating as the claim states. -/
theorem claim4_resolver_cycle_behavior :
    (∀ extra : Nat, ancestorsGo cyclicM "a" [] [] (extra + 4) = ["b", "a"]) ∧
    (∀ n : Nat, kindWalk cyclicM "a" n = none) ∧
    resolve_kinds cyclicM = none := by
  refine ⟨?_, fun n => (cyclic_kindWalk_none n).1, by decide⟩
  intro extra
  show ancestorsGo cyclicM "b" ["b"] ["b"] (extra + 3) = ["b", "a"]
  show ancestorsGo cyclicM "a" ["a", "b"] ["b", "a"] (extra + 2) = ["b", "a"]
  rfl

/-- C8: the parse loop itself skips an unrecognized line and clears the
pending comment buffer (second conjunct), but `parse_tql_file` as a whole
does not complete on every input: on mutually-recursive `sub` declarations
the trailing `_resolve_kinds` pass diverges (first conjunct, `none` marking
divergence), contradicting the claim that parsing always completes. -/
theorem claim8_parser_totality :
    parse_tql_file "f" ["a sub b;", "b sub a;"] emptyModel = none ∧
    (∀ (src : String) (fl : Nat) (st : ParseState) (rest : List String),
      parseLoop src (fl + 1) ("???" :: rest) st =
        parseLoop src fl rest { st with commentBlock := [] }) := by
  refine ⟨by decide, ?_⟩
  intro src fl st rest
  rfl

/-- C3 counterexample: kind resolution runs at the end of every file
parse, not once after all files, and the entity fallback is sticky — `t` is
declared in the first file with parent `p`, `p` is declared as a relation in
the second file, yet `t` keeps kind `entity` instead of receiving `p` kind
`relation` as the claim requires. -/
theorem claim3_counterexample :
    (parse_tql_file "f1" ["t sub p;"] emptyModel).bind
        (parse_tql_file "f2" ["p sub relation;"]) = some staleKindModel ∧
      (staleKindModel.find? "p").map (fun td => td.kind) = some "relation" ∧
      (staleKindModel.find? "t").map (fun td => td.kind) = some "entity" ∧
      (staleKindModel.find? "t").map (fun td => td.kind) ≠ some "relation" := by
  refine ⟨by decide, by decide, by decide, by decide⟩

/-- C5 counterexample: a bare `owns` extension duplicates a direct `owns`
entry, so the attribute `a` appears twice across `g` direct plus inherited
results — the at-most-once guarantee fails for reachable models. -/
theorem claim5_counterexample :
    parse_tql_file "f" ["g sub entity,", "    owns a;", "g owns a;"] emptyModel =
        some dupOwnsModel ∧
      (dupOwnsModel.find? "g").map (fun td => td.owns.map fun o => o.attr) =
        some ["a", "a"] ∧
      dupOwnsModel.get_inherited_owns "g" = some [] ∧
      ¬ ((["a", "a"] ++ ([] : List (OwnsClause × String)).map fun os => os.1.attr) :
          List String).Nodup := by
  refine ⟨by decide, by decide, by decide, by decide⟩

/-- C6 counterexample: in namespace `scilit`, the entity `t` is counted as a
filler of role `a` of relation `R` (and an edge `t)--(q` is emitted) even
though its only matching inherited pair is surfaced via the ancestor `par`
declared in `scilit`, not in the root namespace — the code never inspects
the ancestor namespace, contradicting the "exactly when" of the claim. -/
theorem claim6_counterexample :
    parse_tql_file "scilit"
        ["R sub relation,", "    relates a,", "    relates b;",
         "par sub entity,", "    plays R:a;",
         "t sub par;",
         "q sub entity,", "    plays R:b;"] emptyModel = some inhPlaysModel ∧
      playersForRole inhPlaysModel "scilit" "R" "a" = some ["par", "t"] ∧
      specRoleFillerViaRoot inhPlaysModel "scilit" "R" "a" "t" = false ∧
      erEdges inhPlaysModel "scilit" none =
        some [("par", "q", "R"), ("t", "q", "R")] := by
  refine ⟨by decide, by decide, by decide, by decide⟩

/-- C7 counterexample: the undirected-deduplication key is the raw pair of
type names, not the sanitized node identifiers; the distinct names `p-q` and
`p_q` both render as `p_q`, so the diagram contains the same
identifier-level edge twice for relation `r`. -/
theorem claim7_counterexample :
    parse_tql_file "core"
        ["r sub relation,", "    relates a,", "    relates b;",
         "p-q sub entity,", "    plays r:a;",
         "p_q sub entity,", "    plays r:a;",
         "z sub entity,", "    plays r:b;"] emptyModel = some collideModel ∧
      erEdges collideModel "core" none =
        some [("p-q", "z", "r"), ("p_q", "z", "r")] ∧
      ("p-q", "z", "r") ≠ (("p_q", "z", "r") : Edge) ∧
      renderEdge ("p-q", "z", "r") = renderEdge ("p_q", "z", "r") ∧
      generate_er_diagram collideModel "core" none =
        some ("erDiagram\n    p_q \x7d|--o\x7b z : r\n    p_q \x7d|--o\x7b z : r") := by
  refine ⟨by decide, by decide, by decide, by decide, by decide⟩

/-- Accumulator facts for the per-ancestor emission loop: emitted keys avoid
the incoming `seen` set, are pairwise distinct, and land in the outgoing
`seen` set, which also keeps everything it had. -/
theorem takeNewBy_spec {α κ : Type} [DecidableEq κ] (key : α → κ) (anc : String) :
    ∀ (items : List α) (seen : List κ),
      (∀ x ∈ (takeNewBy key anc items seen).1, key x.1 ∉ seen) ∧
      ((takeNewBy key anc items seen).1.map fun x => key x.1).Nodup ∧
      (∀ s ∈ seen, s ∈ (takeNewBy key anc items seen).2) ∧
      (∀ x ∈ (takeNewBy key anc items seen).1, key x.1 ∈ (takeNewBy key anc items seen).2) := by
  intro items
  induction items with
  | nil => intro seen; simp [takeNewBy]
  | cons o rest ih =>
    intro seen
    by_cases h : key o ∈ seen
    · simpa [takeNewBy, h] using ih seen
    · obtain ⟨ih1, ih2, ih3, ih4⟩ := ih (key o :: seen)
      refine ⟨?_, ?_, ?_, ?_⟩
      · intro x hx
        simp only [takeNewBy, h, if_false] at hx
        rcases List.mem_cons.mp hx with rfl | hx'
        · exact h
        · intro hk
          exact ih1 x hx' (List.mem_cons_of_mem _ hk)
      · simp only [takeNewBy, h, if_false, List.map_cons, List.nodup_cons]
        refine ⟨?_, ih2⟩
        intro hmem
        rcases List.mem_map.mp hmem with ⟨x, hx, hkx⟩
        exact ih1 x hx (hkx ▸ List.mem_cons_self _ _)
      · intro s hs
        simp only [takeNewBy, h, if_false]
        exact ih3 s (List.mem_cons_of_mem _ hs)
      · intro x hx
        simp only [takeNewBy, h, if_false] at hx ⊢
        rcases List.mem_cons.mp hx with rfl | hx'
        · exact ih3 _ (List.mem_cons_self _ _)
        · exact ih4 x hx'

/-- The ancestor loop emits only keys outside the incoming `seen` set, and
the emitted keys are pairwise distinct. -/
theorem inheritGo_spec {α κ : Type} [DecidableEq κ] (key : α → κ)
    (get : TypeDef → List α) (m : SchemaModel) :
    ∀ (ancs : List String) (seen : List κ),
      (∀ x ∈ inheritGo key get m ancs seen, key x.1 ∉ seen) ∧
      ((inheritGo key get m ancs seen).map fun x => key x.1).Nodup := by
  intro ancs
  induction ancs with
  | nil => intro seen; simp [inheritGo]
  | cons a rest ih =>
    intro seen
    cases hf : m.find? a with
    | none => simpa [inheritGo, hf] using ih seen
    | some atd =>
      obtain ⟨t1, t2, t3, t4⟩ := takeNewBy_spec key a (get atd) seen
      obtain ⟨i1, i2⟩ := ih (takeNewBy key a (get atd) seen).2
      constructor
      · intro x hx
        simp only [inheritGo, hf] at hx
        rcases List.mem_append.mp hx with hx' | hx'
        · exact t1 x hx'
        · intro hk
          exact i1 x hx' (t3 _ hk)
      · simp only [inheritGo, hf, List.map_append]
        refine List.Nodup.append t2 i2 ?_
        intro k hk1 hk2
        rcases List.mem_map.mp hk1 with ⟨x, hx, hkx⟩
        rcases List.mem_map.mp hk2 with ⟨y, hy, hky⟩
        refine i1 y hy ?_
        rw [hky, ← hkx]
        exact t4 x hx

/-- C5 (amended): for a type present in the model, the inherited results
never repeat a key of the direct list of the type and are themselves
duplicate-free; consequently, whenever the direct list is duplicate-free
(bare extensions can violate that — see the counterexample), every key
appears at most once across direct plus inherited results, direct entries
taking precedence. -/
theorem claim5_inherited_dedup (m : SchemaModel) (n : String) (td : TypeDef)
    (inhO : List (OwnsClause × String)) (inhP : List (PlaysClause × String))
    (h : m.find? n = some td)
    (hO : m.get_inherited_owns n = some inhO)
    (hP : m.get_inherited_plays n = some inhP) :
    ((∀ x ∈ inhO, x.1.attr ∉ td.owns.map fun o => o.attr) ∧
      (inhO.map fun x => x.1.attr).Nodup ∧
      ((td.owns.map fun o => o.attr).Nodup →
        ((td.owns.map fun o => o.attr) ++ inhO.map fun x => x.1.attr).Nodup)) ∧
    ((∀ x ∈ inhP, (x.1.relation, x.1.role) ∉ td.plays.map fun p => (p.relation, p.role)) ∧
      (inhP.map fun x => (x.1.relation, x.1.role)).Nodup ∧
      ((td.plays.map fun p => (p.relation, p.role)).Nodup →
        ((td.plays.map fun p => (p.relation, p.role)) ++
          inhP.map fun x => (x.1.relation, x.1.role)).Nodup)) := by
  have hO' : inhO = inheritGo (fun o => o.attr) (fun t => t.owns) m
      (m.get_ancestors n) (td.owns.map fun o => o.attr) := by
    simp only [SchemaModel.get_inherited_owns, h, Option.map_some] at hO
    exact (Option.some.inj hO).symm
  have hP' : inhP = inheritGo (fun p => (p.relation, p.role)) (fun t => t.plays) m
      (m.get_ancestors n) (td.plays.map fun p => (p.relation, p.role)) := by
    simp only [SchemaModel.get_inherited_plays, h, Option.map_some] at hP
    exact (Option.some.inj hP).symm
  obtain ⟨o1, o2⟩ := inheritGo_spec (fun o : OwnsClause => o.attr) (fun t => t.owns) m
    (m.get_ancestors n) (td.owns.map fun o => o.attr)
  obtain ⟨p1, p2⟩ := inheritGo_spec (fun p : PlaysClause => (p.relation, p.role))
    (fun t => t.plays) m (m.get_ancestors n) (td.plays.map fun p => (p.relation, p.role))
  subst hO' hP'
  refine ⟨⟨o1, o2, ?_⟩, p1, p2, ?_⟩
  · intro hd
    refine List.Nodup.append hd o2 ?_
    intro k hk1 hk2
    rcases List.mem_map.mp hk2 with ⟨x, hx, hkx⟩
    exact o1 x hx (hkx ▸ hk1)
  · intro hd
    refine List.Nodup.append hd p2 ?_
    intro k hk1 hk2
    rcases List.mem_map.mp hk2 with ⟨x, hx, hkx⟩
    exact p1 x hx (hkx ▸ hk1)

/-- C5 witness: the type `t` of the concrete inherited-plays model. -/
theorem claim5_inherited_dedup_witness :
    (inhPlaysModel.find? "t" =
        some (⟨"t", "entity", "par", false, "", [], [], [], "scilit", "", ""⟩ : TypeDef) ∧
      inhPlaysModel.get_inherited_owns "t" = some [] ∧
      inhPlaysModel.get_inherited_plays "t" = some [(⟨"R", "a", "scilit"⟩, "par")]) ∧
    (((∀ x ∈ ([] : List (OwnsClause × String)),
        x.1.attr ∉ ((⟨"t", "entity", "par", false, "", [], [], [], "scilit", "", ""⟩ :
          TypeDef).owns.map fun o => o.attr)) ∧
      (([] : List (OwnsClause × String)).map fun x => x.1.attr).Nodup ∧
      (((⟨"t", "entity", "par", false, "", [], [], [], "scilit", "", ""⟩ :
          TypeDef).owns.map fun o => o.attr).Nodup →
        (((⟨"t", "entity", "par", false, "", [], [], [], "scilit", "", ""⟩ :
            TypeDef).owns.map fun o => o.attr) ++
          ([] : List (OwnsClause × String)).map fun x => x.1.attr).Nodup)) ∧
    ((∀ x ∈ [((⟨"R", "a", "scilit"⟩ : PlaysClause), "par")],
        (x.1.relation, x.1.role) ∉ ((⟨"t", "entity", "par", false, "", [], [], [],
          "scilit", "", ""⟩ : TypeDef).plays.map fun p => (p.relation, p.role))) ∧
      ([((⟨"R", "a", "scilit"⟩ : PlaysClause), "par")].map fun x =>
        (x.1.relation, x.1.role)).Nodup ∧
      (((⟨"t", "entity", "par", false, "", [], [], [], "scilit", "", ""⟩ :
          TypeDef).plays.map fun p => (p.relation, p.role)).Nodup →
        (((⟨"t", "entity", "par", false, "", [], [], [], "scilit", "", ""⟩ :
            TypeDef).plays.map fun p => (p.relation, p.role)) ++
          [((⟨"R", "a", "scilit"⟩ : PlaysClause), "par")].map fun x =>
            (x.1.relation, x.1.role)).Nodup))) :=
  ⟨⟨by decide, by decide, by decide⟩,
    claim5_inherited_dedup inhPlaysModel "t" _ _ _ (by decide) (by decide) (by decide)⟩

/-- C9 counterexample: parsing a core file and a scilit file gives the
scilit namespace two external parents; the `external_parents` set then has
two elements, and two legitimate enumeration orders of that set (Python set
iteration order is unspecified and varies with the per-process string-hash
seed) produce different namespace documents — the output is not
run-independent as the claim states. -/
theorem claim9_counterexample :
    (parse_tql_file "core" ["p1 sub entity;", "p2 sub entity;"] emptyModel).bind
        (parse_tql_file "scilit" ["c1 sub p1;", "c2 sub p2;"]) = some twoParentModel ∧
      externalParentsList twoParentModel "scilit" = ["p1", "p2"] ∧
      (["p2", "p1"] : List String).Perm ["p1", "p2"] ∧
      generateNamespacePageWith twoParentModel "scilit" [] ["p1", "p2"] ≠
        generateNamespacePageWith twoParentModel "scilit" [] ["p2", "p1"] := by
  refine ⟨by decide, by decide, List.Perm.swap "p1" "p2" [], by decide⟩

/-- C9 (amended): the pipeline is deterministic once the enumeration order
of the class diagram `external_parents` set is fixed; in particular, when
the set has at most one element every legitimate enumeration yields the same
document, so only namespaces with two or more external parents are affected
by the set-order nondeterminism. -/
theorem claim9_deterministic_upto_set_order (m : SchemaModel) (ns : String)
    (l1 l2 : List String)
    (h1 : l1.Perm (externalParentsList m ns)) (h2 : l2.Perm (externalParentsList m ns))
    (hlen : (externalParentsList m ns).length ≤ 1) :
    generateClassDiagramWith m ns l1 = generateClassDiagramWith m ns l2 := by
  have hl : l1 = l2 := by
    cases hx : externalParentsList m ns with
    | nil =>
      rw [hx] at h1 h2
      rw [List.perm_nil.mp h1, List.perm_nil.mp h2]
    | cons x rest =>
      cases rest with
      | nil =>
        rw [hx] at h1 h2
        rw [List.perm_singleton.mp h1, List.perm_singleton.mp h2]
      | cons y rest2 =>
        rw [hx] at hlen
        simp at hlen
  rw [hl]

/-- C9 witness: the empty model has no external parents in any namespace. -/
theorem claim9_deterministic_upto_set_order_witness :
    (([] : List String).Perm (externalParentsList emptyModel "core") ∧
      (externalParentsList emptyModel "core").length ≤ 1) ∧
    generateClassDiagramWith emptyModel "core" [] =
      generateClassDiagramWith emptyModel "core" [] :=
  ⟨⟨by decide, by decide⟩,
    claim9_deterministic_upto_set_order emptyModel "core" [] []
      (by decide) (by decide) (by decide)⟩

/-- Dict assignment then lookup of the same key. -/
theorem findEntry?_updateEntries_self (l : List (String × TypeDef)) (n : String)
    (td : TypeDef) : findEntry? (updateEntries l n td) n = some td := by
  by_cases h : (findEntry? l n).isSome
  · simp only [updateEntries, h, if_true]
    induction l with
    | nil => simp [findEntry?] at h
    | cons e rest ih =>
      obtain ⟨k, v⟩ := e
      by_cases hk : k = n
      · show findEntry? ((if k = n then (n, td) else (k, v)) :: _) n = some td
        rw [if_pos hk]
        show (if n = n then some td else _) = some td
        rw [if_pos rfl]
      · have h' : (findEntry? rest n).isSome := by
          have : findEntry? ((k, v) :: rest) n = findEntry? rest n := by
            show (if k = n then some v else findEntry? rest n) = findEntry? rest n
            rw [if_neg hk]
          rw [this] at h
          exact h
        show findEntry? ((if k = n then (n, td) else (k, v)) :: _) n = some td
        rw [if_neg hk]
        show (if k = n then some v else _) = some td
        rw [if_neg hk]
        exact ih h'
  · simp only [updateEntries, h, if_false]
    induction l with
    | nil =>
      show (if n = n then some td else findEntry? [] n) = some td
      rw [if_pos rfl]
    | cons e rest ih =>
      obtain ⟨k, v⟩ := e
      have hk : ¬ k = n := by
        intro hk
        have : (findEntry? ((k, v) :: rest) n).isSome := by
          show (Option.isSome (if k = n then some v else findEntry? rest n)) = true
          rw [if_pos hk]
          rfl
        exact h this
      have h' : ¬ (findEntry? rest n).isSome := by
        intro h'
        refine h ?_
        show (Option.isSome (if k = n then some v else findEntry? rest n)) = true
        rw [if_neg hk]
        exact h'
      show (if k = n then some v else findEntry? (rest ++ [(n, td)]) n) = some td
      rw [if_neg hk]
      exact ih h'

/-- Dict assignment leaves lookups of other keys unchanged. -/
theorem findEntry?_updateEntries_other (l : List (String × TypeDef)) (n : String)
    (td : TypeDef) (n' : String) (h : n' ≠ n) :
    findEntry? (updateEntries l n td) n' = findEntry? l n' := by
  by_cases hs : (findEntry? l n).isSome
  · simp only [updateEntries, hs, if_true]
    clear hs
    induction l with
    | nil => rfl
    | cons e rest ih =>
      obtain ⟨k, v⟩ := e
      by_cases hk : k = n
      · show findEntry? ((if k = n then (n, td) else (k, v)) :: _) n' = _
        rw [if_pos hk]
        show (if n = n' then some td else _) = _
        rw [if_neg (Ne.symm h)]
        show _ = (if k = n' then some v else findEntry? rest n')
        have hk' : ¬ k = n' := by
          rw [hk]
          exact Ne.symm h
        rw [if_neg hk']
        exact ih
      · show findEntry? ((if k = n then (n, td) else (k, v)) :: _) n' = _
        rw [if_neg hk]
        show (if k = n' then some v else _) = (if k = n' then some v else findEntry? rest n')
        by_cases hk' : k = n'
        · rw [if_pos hk', if_pos hk']
        · rw [if_neg hk', if_neg hk']
          exact ih
  · simp only [updateEntries, hs, if_false]
    clear hs
    induction l with
    | nil =>
      show (if n = n' then some td else findEntry? [] n') = findEntry? [] n'
      rw [if_neg (Ne.symm h)]
    | cons e rest ih =>
      obtain ⟨k, v⟩ := e
      show (if k = n' then some v else findEntry? (rest ++ [(n, td)]) n') =
        (if k = n' then some v else findEntry? rest n')
      by_cases hk' : k = n'
      · rw [if_pos hk', if_pos hk']
      · rw [if_neg hk', if_neg hk']
        exact ih

/-- A found key is among the keys. -/
theorem findEntry?_some_mem_keys (l : List (String × TypeDef)) (n : String)
    (td : TypeDef) (h : findEntry? l n = some td) : n ∈ l.map Prod.fst := by
  induction l with
  | nil => simp [findEntry?] at h
  | cons e rest ih =>
    obtain ⟨k, v⟩ := e
    by_cases hk : k = n
    · simp [hk]
    · have h' : findEntry? rest n = some td := by
        have : findEntry? ((k, v) :: rest) n = findEntry? rest n := by
          show (if k = n then some v else findEntry? rest n) = findEntry? rest n
          rw [if_neg hk]
        rw [this] at h
        exact h
      simp [ih h']

/-- The kind-resolution pass never touches an entry whose kind is already
determined. -/
theorem resolveGo_preserves (names : List String) :
    ∀ (m m' : SchemaModel) (n : String) (td : TypeDef),
      resolveGo names m = some m' → m.find? n = some td → td.kind ≠ "" →
        m'.find? n = some td := by
  induction names with
  | nil =>
    intro m m' n td h hf _
    simp only [resolveGo] at h
    exact (Option.some.inj h) ▸ hf
  | cons nm rest ih =>
    intro m m' n td h hf hk
    cases hfm : m.find? nm with
    | none =>
      simp only [resolveGo, hfm] at h
      exact ih m m' n td h hf hk
    | some tdn =>
      by_cases hkn : tdn.kind = ""
      · cases hw : kindWalk m tdn.parent (m.types.length + 2) with
        | none =>
          simp only [resolveGo, hfm, if_pos hkn, hw] at h
          exact Option.noConfusion h
        | some k =>
          simp only [resolveGo, hfm, if_pos hkn, hw] at h
          refine ih _ m' n td h ?_ hk
          have hne : n ≠ nm := by
            intro he
            rw [he, hfm] at hf
            exact hk ((Option.some.inj hf) ▸ hkn)
          show findEntry? (updateEntries m.types nm _) n = some td
          rw [findEntry?_updateEntries_other m.types nm _ n hne]
          exact hf
      · simp only [resolveGo, hfm, if_neg hkn] at h
        exact ih m m' n td h hf hk

/-- C1 (amended): the only placeholder materialization is for the subject of
a bare-plays statement — parsing `g plays worksOn:employee;` over any model
in which `g` is unknown creates the placeholder `TypeDefinition` with kind
defaulted to entity carrying exactly that `PlaysClause` (parent names, plays
relation names, and bare-owns subjects are never materialized, per the
counterexample). -/
theorem claim1_bare_plays_placeholder (m : SchemaModel) (src : String)
    (m' : SchemaModel) (h1 : m.find? "g" = none)
    (h2 : parse_tql_file src ["g plays worksOn:employee;"] m = some m') :
    m'.find? "g" = some (barePlaysPlaceholder src "worksOn" "employee" "g") := by
  have hstep : parseLoop src (["g plays worksOn:employee;"].length + 1)
      ["g plays worksOn:employee;"] ⟨m, "", []⟩ =
      ⟨(match m.find? "g" with
        | some td =>
          m.insertOrUpdate "g" { td with plays := td.plays ++ [⟨"worksOn", "employee", src⟩] }
        | none => m.insertOrUpdate "g" (barePlaysPlaceholder src "worksOn" "employee" "g")),
       "", []⟩ := rfl
  rw [h1] at hstep
  have h2' : resolve_kinds
      (m.insertOrUpdate "g" (barePlaysPlaceholder src "worksOn" "employee" "g")) =
      some m' := by
    rw [parse_tql_file, hstep] at h2
    exact h2
  refine resolveGo_preserves _ _ m' "g" _ h2' ?_ (by simp [barePlaysPlaceholder])
  exact findEntry?_updateEntries_self m.types "g" _

/-- C1 witness: the bare-plays scenario on the empty model. -/
theorem claim1_bare_plays_placeholder_witness :
    (emptyModel.find? "g" = none ∧
      parse_tql_file "core" ["g plays worksOn:employee;"] emptyModel =
        some ⟨[("g", barePlaysPlaceholder "core" "worksOn" "employee" "g")]⟩) ∧
    (⟨[("g", barePlaysPlaceholder "core" "worksOn" "employee" "g")]⟩ :
        SchemaModel).find? "g" =
      some (barePlaysPlaceholder "core" "worksOn" "employee" "g") :=
  ⟨⟨by decide, by decide⟩,
    claim1_bare_plays_placeholder emptyModel "core" _ (by decide) (by decide)⟩

/-- Unfolding equation of the walk: empty current name. -/
theorem kindWalk_succ_empty (m : SchemaModel) (c : String) (f : Nat) (hc : c = "") :
    kindWalk m c (f + 1) = some "entity" := by
  rw [kindWalk, if_pos hc]

/-- Unfolding equation of the walk: unknown current name. -/
theorem kindWalk_succ_none (m : SchemaModel) (c : String) (f : Nat) (hc : ¬ c = "")
    (hf : m.find? c = none) : kindWalk m c (f + 1) = some "entity" := by
  rw [kindWalk, if_neg hc, hf]

/-- Unfolding equation of the walk: entry with unresolved kind. -/
theorem kindWalk_succ_unset (m : SchemaModel) (c : String) (f : Nat) (td : TypeDef)
    (hc : ¬ c = "") (hf : m.find? c = some td) (hk : td.kind = "") :
    kindWalk m c (f + 1) = kindWalk m td.parent f := by
  rw [kindWalk, if_neg hc, hf]
  show (if td.kind = "" then kindWalk m td.parent f else some td.kind) =
    kindWalk m td.parent f
  rw [if_pos hk]

/-- Unfolding equation of the walk: entry with determined kind. -/
theorem kindWalk_succ_set (m : SchemaModel) (c : String) (f : Nat) (td : TypeDef)
    (hc : ¬ c = "") (hf : m.find? c = some td) (hk : ¬ td.kind = "") :
    kindWalk m c (f + 1) = some td.kind := by
  rw [kindWalk, if_neg hc, hf]
  show (if td.kind = "" then kindWalk m td.parent f else some td.kind) = some td.kind
  rw [if_neg hk]

/-- The fueled walk is monotone in the fuel. -/
theorem kindWalk_le_mono (m : SchemaModel) :
    ∀ (f f' : Nat) (c k : String), f ≤ f' → kindWalk m c f = some k →
      kindWalk m c f' = some k := by
  intro f
  induction f with
  | zero => intro f' c k _ h; exact Option.noConfusion h
  | succ f ih =>
    intro f' c k hle h
    obtain ⟨g, rfl⟩ : ∃ g, f' = g + 1 := by
      cases f' with
      | zero => omega
      | succ g => exact ⟨g, rfl⟩
    by_cases hc : c = ""
    · rw [kindWalk_succ_empty m c f hc] at h
      rw [kindWalk_succ_empty m c g hc]
      exact h
    · cases hf : m.find? c with
      | none =>
        rw [kindWalk_succ_none m c f hc hf] at h
        rw [kindWalk_succ_none m c g hc hf]
        exact h
      | some td =>
        by_cases hk : td.kind = ""
        · rw [kindWalk_succ_unset m c f td hc hf hk] at h
          rw [kindWalk_succ_unset m c g td hc hf hk]
          exact ih g td.parent k (by omega) h
        · rw [kindWalk_succ_set m c f td hc hf hk] at h
          rw [kindWalk_succ_set m c g td hc hf hk]
          exact h

/-- The walk never produces the empty kind. -/
theorem kindWalk_some_ne (m : SchemaModel) :
    ∀ (f : Nat) (c k : String), kindWalk m c f = some k → k ≠ "" := by
  intro f
  induction f with
  | zero => intro c k h; exact Option.noConfusion h
  | succ f ih =>
    intro c k h
    by_cases hc : c = ""
    · rw [kindWalk_succ_empty m c f hc] at h
      rw [← Option.some.inj h]
      decide
    · cases hf : m.find? c with
      | none =>
        rw [kindWalk_succ_none m c f hc hf] at h
        rw [← Option.some.inj h]
        decide
      | some td =>
        by_cases hk : td.kind = ""
        · rw [kindWalk_succ_unset m c f td hc hf hk] at h
          exact ih td.parent k h
        · rw [kindWalk_succ_set m c f td hc hf hk] at h
          rw [← Option.some.inj h]
          exact hk

/-- An entry whose kind is still empty is untouched. -/
theorem entryRel_kind_empty (m₀ : SchemaModel) (td₀ td : TypeDef)
    (h : EntryRel m₀ td₀ td) (hk : td.kind = "") : td = td₀ ∧ td₀.kind = "" := by
  rcases h with rfl | ⟨h0, k, hkne, _, rfl⟩
  · exact ⟨rfl, hk⟩
  · exact absurd hk hkne

/-- Under the invariant, any successful walk over the evolving model is also
a successful walk — with the same result — over the original model. -/
theorem walkTo_of_inv (m₀ m : SchemaModel) (hinv : ResolveInv m₀ m) :
    ∀ (f : Nat) (c k : String), kindWalk m c f = some k → WalkTo m₀ c k := by
  intro f
  induction f with
  | zero => intro c k h; exact Option.noConfusion h
  | succ f ih =>
    intro c k h
    by_cases hc : c = ""
    · rw [kindWalk_succ_empty m c f hc] at h
      exact ⟨1, by rw [kindWalk_succ_empty m₀ c 0 hc, h]⟩
    · cases hf : m.find? c with
      | none =>
        rw [kindWalk_succ_none m c f hc hf] at h
        have h0 : m₀.find? c = none := (hinv.1 c).mp hf
        exact ⟨1, by rw [kindWalk_succ_none m₀ c 0 hc h0, h]⟩
      | some td =>
        obtain ⟨td₀, hf0, hrel⟩ := hinv.2 c td hf
        by_cases hk : td.kind = ""
        · rw [kindWalk_succ_unset m c f td hc hf hk] at h
          obtain ⟨rfl, hk0⟩ := entryRel_kind_empty m₀ td₀ td hrel hk
          obtain ⟨f₀, hw⟩ := ih td.parent k h
          refine ⟨f₀ + 1, ?_⟩
          rw [kindWalk_succ_unset m₀ c f₀ td hc hf0 hk0]
          exact hw
        · rw [kindWalk_succ_set m c f td hc hf hk] at h
          rcases hrel with rfl | ⟨hk0, k', hkne', hwalk', rfl⟩
          · refine ⟨1, ?_⟩
            rw [kindWalk_succ_set m₀ c 0 td hc hf0 hk, h]
          · obtain ⟨f₀, hw'⟩ := hwalk'
            have hkk : k = k' := by
              have h' := Option.some.inj h
              simp only [] at h'
              exact h'.symm
            refine ⟨f₀ + 1, ?_⟩
            rw [kindWalk_succ_unset m₀ c f₀ td₀ hc hf0 hk0, hkk]
            exact hw'

/-- The invariant holds reflexively. -/
theorem resolveInv_refl (m₀ : SchemaModel) : ResolveInv m₀ m₀ :=
  ⟨fun _ => Iff.rfl, fun _ td h => ⟨td, h, Or.inl rfl⟩⟩

/-- One resolution step preserves the invariant. -/
theorem resolveInv_update (m₀ m : SchemaModel) (hinv : ResolveInv m₀ m)
    (nm : String) (td : TypeDef) (k : String)
    (hfm : m.find? nm = some td) (hkE : td.kind = "")
    (hw : kindWalk m td.parent (m.types.length + 2) = some k) :
    ResolveInv m₀ (m.insertOrUpdate nm { td with kind := k }) := by
  obtain ⟨td₀, hf0, hrel⟩ := hinv.2 nm td hfm
  obtain ⟨rfl, hk0⟩ := entryRel_kind_empty m₀ td₀ td hrel hkE
  constructor
  · intro n
    by_cases hn : n = nm
    · subst hn
      constructor
      · intro hnone
        rw [show (m.insertOrUpdate n { td with kind := k }).find? n =
            some { td with kind := k } from
          findEntry?_updateEntries_self m.types n _] at hnone
        exact Option.noConfusion hnone
      · intro h0
        rw [hf0] at h0
        exact Option.noConfusion h0
    · rw [show (m.insertOrUpdate nm { td with kind := k }).find? n = m.find? n from
        findEntry?_updateEntries_other m.types nm _ n hn]
      exact hinv.1 n
  · intro n td' hfind
    by_cases hn : n = nm
    · subst hn
      rw [show (m.insertOrUpdate n { td with kind := k }).find? n =
          some { td with kind := k } from
        findEntry?_updateEntries_self m.types n _] at hfind
      refine ⟨td, hf0, Or.inr ⟨hk0, k, kindWalk_some_ne m _ _ _ hw,
        walkTo_of_inv m₀ m hinv _ _ _ hw, ?_⟩⟩
      exact (Option.some.inj hfind).symm
    · rw [show (m.insertOrUpdate nm { td with kind := k }).find? n = m.find? n from
        findEntry?_updateEntries_other m.types nm _ n hn] at hfind
      exact hinv.2 n td' hfind

/-- The whole pass preserves the invariant. -/
theorem resolveGo_inv (m₀ : SchemaModel) :
    ∀ (names : List String) (m m' : SchemaModel),
      ResolveInv m₀ m → resolveGo names m = some m' → ResolveInv m₀ m' := by
  intro names
  induction names with
  | nil =>
    intro m m' hinv h
    simp only [resolveGo] at h
    exact (Option.some.inj h) ▸ hinv
  | cons nm rest ih =>
    intro m m' hinv h
    cases hfm : m.find? nm with
    | none =>
      simp only [resolveGo, hfm] at h
      exact ih m m' hinv h
    | some tdn =>
      by_cases hkn : tdn.kind = ""
      · cases hw : kindWalk m tdn.parent (m.types.length + 2) with
        | none =>
          simp only [resolveGo, hfm, if_pos hkn, hw] at h
          exact Option.noConfusion h
        | some k =>
          simp only [resolveGo, hfm, if_pos hkn, hw] at h
          exact ih _ m' (resolveInv_update m₀ m hinv nm tdn k hfm hkn hw) h
      · simp only [resolveGo, hfm, if_neg hkn] at h
        exact ih m m' hinv h

/-- Entries that are still unknown stay unknown (keys are never added or
removed by the pass). -/
theorem resolveGo_none_preserved (names : List String) (m m' : SchemaModel)
    (h : resolveGo names m = some m') (n : String) (hn : m.find? n = none) :
    m'.find? n = none := by
  have hinv := resolveGo_inv m names m m' (resolveInv_refl m) h
  cases hfind : m'.find? n with
  | none => rfl
  | some td' =>
    obtain ⟨td₀, hf0, _⟩ := hinv.2 n td' hfind
    rw [hn] at hf0
    exact Option.noConfusion hf0

/-- After the pass, every processed name has a determined kind. -/
theorem resolveGo_resolves :
    ∀ (names : List String) (m m' : SchemaModel),
      resolveGo names m = some m' →
        ∀ n ∈ names, ∀ td', m'.find? n = some td' → td'.kind ≠ "" := by
  intro names
  induction names with
  | nil => intro m m' _ n hn; exact absurd hn (List.not_mem_nil n)
  | cons nm rest ih =>
    intro m m' h n hn td' hfind
    cases hfm : m.find? nm with
    | none =>
      simp only [resolveGo, hfm] at h
      rcases List.mem_cons.mp hn with rfl | hn'
      · rw [resolveGo_none_preserved rest m m' h n hfm] at hfind
        exact Option.noConfusion hfind
      · exact ih m m' h n hn' td' hfind
    | some tdn =>
      by_cases hkn : tdn.kind = ""
      · cases hw : kindWalk m tdn.parent (m.types.length + 2) with
        | none =>
          simp only [resolveGo, hfm, if_pos hkn, hw] at h
          exact Option.noConfusion h
        | some k =>
          simp only [resolveGo, hfm, if_pos hkn, hw] at h
          rcases List.mem_cons.mp hn with rfl | hn'
          · have hself : (m.insertOrUpdate n { tdn with kind := k }).find? n =
                some { tdn with kind := k } :=
              findEntry?_updateEntries_self m.types n _
            have hpres := resolveGo_preserves rest _ m' n { tdn with kind := k } h hself
              (by simpa using kindWalk_some_ne m _ _ _ hw)
            rw [hpres] at hfind
            have : td' = { tdn with kind := k } := (Option.some.inj hfind).symm
            rw [this]
            simpa using kindWalk_some_ne m _ _ _ hw
          · exact ih _ m' h n hn' td' hfind
      · simp only [resolveGo, hfm, if_neg hkn] at h
        rcases List.mem_cons.mp hn with rfl | hn'
        · have hpres := resolveGo_preserves rest m m' n tdn h hfm hkn
          rw [hpres] at hfind
          rw [(Option.some.inj hfind).symm]
          exact hkn
        · exact ih m m' h n hn' td' hfind

/-- C3 (amended): `_resolve_kinds` is a full pass over the model it is given
(it runs each time a file finishes parsing, not once after all files — see the
counterexample): an entry with a determined kind is left untouched, and an
entry whose kind is unset receives exactly the kind computed by walking its
parent chain in that model — the kind of the nearest ancestor with a
determined kind, defaulting to entity when the chain exits on an empty or
unknown parent (`WalkTo`). -/
theorem claim3_per_pass_resolution (m₀ m' : SchemaModel)
    (h : resolve_kinds m₀ = some m') (n : String) (td₀ : TypeDef)
    (hf : m₀.find? n = some td₀) :
    (td₀.kind ≠ "" → m'.find? n = some td₀) ∧
    (td₀.kind = "" → ∃ k, k ≠ "" ∧ WalkTo m₀ td₀.parent k ∧
      m'.find? n = some { td₀ with kind := k }) := by
  constructor
  · intro hk
    exact resolveGo_preserves _ m₀ m' n td₀ h hf hk
  · intro hk0
    have hmem : n ∈ m₀.types.map Prod.fst := findEntry?_some_mem_keys m₀.types n td₀ hf
    have hinv := resolveGo_inv m₀ _ m₀ m' (resolveInv_refl m₀) h
    cases hfind : m'.find? n with
    | none =>
      rw [(hinv.1 n).mp hfind] at hf
      exact Option.noConfusion hf
    | some td' =>
      have hne := resolveGo_resolves _ m₀ m' h n hmem td' hfind
      obtain ⟨td₀', hf0', hrel⟩ := hinv.2 n td' hfind
      rw [hf] at hf0'
      have : td₀' = td₀ := Option.some.inj hf0'.symm
      subst this
      rcases hrel with rfl | ⟨_, k, hkne, hwalk, rfl⟩
      · exact absurd hk0 hne
      · exact ⟨k, hkne, hwalk, rfl⟩

/-- C3 witness: resolving the two-type model assigns `t` the kind of its parent. -/
theorem claim3_per_pass_resolution_witness :
    (resolve_kinds preResolveModel = some postResolveModel ∧
      preResolveModel.find? "t" =
        some (⟨"t", "", "p", false, "", [], [], [], "f1", "", ""⟩ : TypeDef)) ∧
    (((⟨"t", "", "p", false, "", [], [], [], "f1", "", ""⟩ : TypeDef).kind ≠ "" →
        postResolveModel.find? "t" =
          some (⟨"t", "", "p", false, "", [], [], [], "f1", "", ""⟩ : TypeDef)) ∧
      ((⟨"t", "", "p", false, "", [], [], [], "f1", "", ""⟩ : TypeDef).kind = "" →
        ∃ k, k ≠ "" ∧
          WalkTo preResolveModel
            (⟨"t", "", "p", false, "", [], [], [], "f1", "", ""⟩ : TypeDef).parent k ∧
          postResolveModel.find? "t" =
            some { (⟨"t", "", "p", false, "", [], [], [], "f1", "", ""⟩ : TypeDef) with kind := k })) :=
  ⟨⟨by decide, by decide⟩,
    claim3_per_pass_resolution preResolveModel postResolveModel (by decide) "t" _
      (by decide)⟩

/-- Membership in the inherited-plays fold of the player-collection loop:
the fold appends `tn` exactly once when some inherited pair matches and `tn`
is not already listed. -/
theorem playersFold_mem (relName roleName tn : String) :
    ∀ (inh : List (PlaysClause × String)) (a : List String) (x : String),
      (x ∈ inh.foldl (fun a pr =>
        if pr.1.relation = relName ∧ pr.1.role = roleName ∧ tn ∉ a
        then a ++ [tn] else a) a) ↔
      (x ∈ a ∨ (x = tn ∧ ∃ pr ∈ inh, pr.1.relation = relName ∧ pr.1.role = roleName)) := by
  intro inh
  induction inh with
  | nil => intro a x; simp
  | cons pr rest ih =>
    intro a x
    simp only [List.foldl_cons]
    by_cases hm : pr.1.relation = relName ∧ pr.1.role = roleName
    · by_cases ha : tn ∈ a
      · have hcond : ¬(pr.1.relation = relName ∧ pr.1.role = roleName ∧ tn ∉ a) :=
          fun h => h.2.2 ha
        rw [if_neg hcond]
        rw [ih a x]
        constructor
        · rintro (hx | ⟨rfl, pr', hpr', hm'⟩)
          · exact Or.inl hx
          · exact Or.inr ⟨rfl, pr', List.mem_cons_of_mem _ hpr', hm'⟩
        · rintro (hx | ⟨rfl, pr', hpr', hm'⟩)
          · exact Or.inl hx
          · rcases List.mem_cons.mp hpr' with rfl | hpr''
            · exact Or.inl ha
            · exact Or.inr ⟨rfl, pr', hpr'', hm'⟩
      · have hcond : pr.1.relation = relName ∧ pr.1.role = roleName ∧ tn ∉ a :=
          ⟨hm.1, hm.2, ha⟩
        rw [if_pos hcond]
        rw [ih (a ++ [tn]) x]
        simp only [List.mem_append, List.mem_singleton]
        constructor
        · rintro ((hx | rfl) | ⟨rfl, pr', hpr', hm'⟩)
          · exact Or.inl hx
          · exact Or.inr ⟨rfl, pr, List.mem_cons_self _ _, hm⟩
          · exact Or.inr ⟨rfl, pr', List.mem_cons_of_mem _ hpr', hm'⟩
        · rintro (hx | ⟨rfl, _, _, _⟩)
          · exact Or.inl (Or.inl hx)
          · exact Or.inl (Or.inr rfl)
    · have hcond : ¬(pr.1.relation = relName ∧ pr.1.role = roleName ∧ tn ∉ a) :=
        fun h => hm ⟨h.1, h.2.1⟩
      rw [if_neg hcond]
      rw [ih a x]
      constructor
      · rintro (hx | ⟨rfl, pr', hpr', hm'⟩)
        · exact Or.inl hx
        · exact Or.inr ⟨rfl, pr', List.mem_cons_of_mem _ hpr', hm'⟩
      · rintro (hx | ⟨rfl, pr', hpr', hm'⟩)
        · exact Or.inl hx
        · rcases List.mem_cons.mp hpr' with rfl | hpr''
          · exact absurd hm' hm
          · exact Or.inr ⟨rfl, pr', hpr'', hm'⟩

/-- Membership characterization of the player-collection loop, relative to
an accumulator: a name is listed iff it was already accumulated or some
scanned entity entry justifies it directly or via inherited plays. -/
theorem playersGo_mem (m : SchemaModel) (ns relName roleName : String) :
    ∀ (entries : List (String × TypeDef)) (acc ps : List String),
      (∀ e ∈ entries, (e : String × TypeDef).2.name = e.1) →
      playersGo m ns relName roleName entries acc = some ps →
      ∀ x, (x ∈ ps ↔ x ∈ acc ∨ ∃ td, (x, td) ∈ entries ∧ td.kind = "entity" ∧
        ((∃ p ∈ td.plays, p.relation = relName ∧ p.role = roleName) ∨
         (ns ≠ "core" ∧ td.defined_in = ns ∧
           ∃ inh, m.get_inherited_plays x = some inh ∧
             ∃ pr ∈ inh, pr.1.relation = relName ∧ pr.1.role = roleName))) := by
  intro entries
  induction entries with
  | nil =>
    intro acc ps _ hps x
    simp only [playersGo] at hps
    rw [← Option.some.inj hps]
    simp
  | cons e rest ih =>
    obtain ⟨key, t⟩ := e
    intro acc ps hwf hps x
    have hwfh : t.name = key := hwf (key, t) (List.mem_cons_self _ _)
    have hwfr : ∀ e ∈ rest, (e : String × TypeDef).2.name = e.1 :=
      fun e he => hwf e (List.mem_cons_of_mem _ he)
    have hsplit : ∀ (C : TypeDef → Prop),
        (∃ td, (x, td) ∈ (key, t) :: rest ∧ C td) ↔
          ((x = key ∧ C t) ∨ ∃ td, (x, td) ∈ rest ∧ C td) := by
      intro C
      constructor
      · rintro ⟨td, htd, hc⟩
        rcases List.mem_cons.mp htd with heq | hmem
        · obtain ⟨h1, h2⟩ := Prod.mk.injEq .. ▸ heq
          exact Or.inl ⟨h1, h2 ▸ hc⟩
        · exact Or.inr ⟨td, hmem, hc⟩
      · rintro (⟨rfl, hc⟩ | ⟨td, hmem, hc⟩)
        · exact ⟨t, List.mem_cons_self _ _, hc⟩
        · exact ⟨td, List.mem_cons_of_mem _ hmem, hc⟩
    by_cases ht : t.kind = "entity"
    · by_cases hns : ns ≠ "core" ∧ t.defined_in = ns
      · cases hinh : m.get_inherited_plays t.name with
        | none =>
          simp only [playersGo, if_pos ht, if_pos hns, hinh] at hps
          exact Option.noConfusion hps
        | some inh =>
          simp only [playersGo, if_pos ht, if_pos hns, hinh] at hps
          have hih := ih _ ps hwfr hps x
          rw [hih, playersFold_mem relName roleName t.name inh _ x]
          rw [hsplit]
          simp only [List.mem_append, List.mem_map, List.mem_filter]
          constructor
          · rintro ((((hx | ⟨p, hp, hxn⟩) | ⟨rfl, pr, hpr, hm1, hm2⟩) | hr))
            · exact Or.inl hx
            · refine Or.inr (Or.inl ⟨hxn.symm.trans hwfh, ht, Or.inl ⟨p, hp.1, ?_⟩⟩)
              have := hp.2
              simp only [Bool.and_eq_true, decide_eq_true_eq] at this
              exact this
            · exact Or.inr (Or.inl ⟨hwfh, ht, Or.inr ⟨hns.1, hns.2, inh, hinh, pr, hpr, hm1, hm2⟩⟩)
            · exact Or.inr (Or.inr hr)
          · rintro (hx | (⟨rfl, _, (⟨p, hp, hm1, hm2⟩ | ⟨_, _, inh', hinh', pr, hpr, hm1, hm2⟩)⟩) | hr)
            · exact Or.inl (Or.inl (Or.inl hx))
            · refine Or.inl (Or.inl (Or.inr ⟨p, ⟨hp, ?_⟩, hwfh⟩))
              simp only [Bool.and_eq_true, decide_eq_true_eq]
              exact ⟨hm1, hm2⟩
            · rw [← hwfh] at hinh'
              rw [hinh] at hinh'
              obtain rfl := Option.some.inj hinh'
              exact Or.inl (Or.inr ⟨hwfh.symm, pr, hpr, hm1, hm2⟩)
            · exact Or.inr hr
      · simp only [playersGo, if_pos ht, if_neg hns] at hps
        have hih := ih _ ps hwfr hps x
        rw [hih, hsplit]
        simp only [List.mem_append, List.mem_map, List.mem_filter]
        constructor
        · rintro ((hx | ⟨p, hp, hxn⟩) | hr)
          · exact Or.inl hx
          · refine Or.inr (Or.inl ⟨hxn.symm.trans hwfh, ht, Or.inl ⟨p, hp.1, ?_⟩⟩)
            have := hp.2
            simp only [Bool.and_eq_true, decide_eq_true_eq] at this
            exact this
          · exact Or.inr (Or.inr hr)
        · rintro (hx | (⟨rfl, _, (⟨p, hp, hm1, hm2⟩ | ⟨hc1, hc2, _⟩)⟩) | hr)
          · exact Or.inl (Or.inl hx)
          · refine Or.inl (Or.inr ⟨p, ⟨hp, ?_⟩, hwfh⟩)
            simp only [Bool.and_eq_true, decide_eq_true_eq]
            exact ⟨hm1, hm2⟩
          · exact absurd ⟨hc1, hc2⟩ hns
          · exact Or.inr hr
    · simp only [playersGo, if_neg ht] at hps
      have hih := ih _ ps hwfr hps x
      rw [hih, hsplit]
      constructor
      · rintro (hx | hr)
        · exact Or.inl hx
        · exact Or.inr (Or.inr hr)
      · rintro (hx | ⟨_, hc, _⟩ | hr)
        · exact Or.inl hx
        · exact absurd hc ht
        · exact Or.inr hr

/-- C6 (amended): in the relationship diagram a type name is counted as
filling role `roleName` of relation `relName` exactly when its entry is an
entity and either carries a matching direct `PlaysClause`, or — only for a
non-root namespace and a type declared in that namespace —
`get_inherited_plays` surfaces a matching pair via ANY ancestor (the
ancestor namespace is never examined, per the counterexample). -/
theorem claim6_role_filler_iff (m : SchemaModel) (ns relName roleName n : String)
    (ps : List String)
    (hwf : ∀ e ∈ m.types, (e : String × TypeDef).2.name = e.1)
    (hps : playersForRole m ns relName roleName = some ps) :
    (n ∈ ps ↔ ∃ td, (n, td) ∈ m.types ∧ td.kind = "entity" ∧
      ((∃ p ∈ td.plays, p.relation = relName ∧ p.role = roleName) ∨
       (ns ≠ "core" ∧ td.defined_in = ns ∧
         ∃ inh, m.get_inherited_plays n = some inh ∧
           ∃ pr ∈ inh, pr.1.relation = relName ∧ pr.1.role = roleName))) := by
  have h := playersGo_mem m ns relName roleName m.types [] ps hwf hps n
  simpa using h

/-- C6 witness: the type `t` of the concrete inherited-plays model fills
role `a` of `R`. -/
theorem claim6_role_filler_iff_witness :
    ((∀ e ∈ inhPlaysModel.types, (e : String × TypeDef).2.name = e.1) ∧
      playersForRole inhPlaysModel "scilit" "R" "a" = some ["par", "t"]) ∧
    ("t" ∈ ["par", "t"] ↔ ∃ td, ("t", td) ∈ inhPlaysModel.types ∧
      td.kind = "entity" ∧
      ((∃ p ∈ td.plays, p.relation = "R" ∧ p.role = "a") ∨
       ("scilit" ≠ "core" ∧ td.defined_in = "scilit" ∧
         ∃ inh, inhPlaysModel.get_inherited_plays "t" = some inh ∧
           ∃ pr ∈ inh, pr.1.relation = "R" ∧ pr.1.role = "a"))) :=
  ⟨⟨by decide, by decide⟩,
    claim6_role_filler_iff inhPlaysModel "scilit" "R" "a" "t" ["par", "t"]
      (by decide) (by decide)⟩

/-- Appending a fresh element keeps a list duplicate-free. -/
theorem nodup_append_singleton {α : Type} (l : List α) (a : α) (h : l.Nodup)
    (ha : a ∉ l) : (l ++ [a]).Nodup := by
  rw [List.nodup_append]
  refine ⟨h, List.nodup_singleton a, ?_⟩
  intro b hb hb2
  exact ha ((List.mem_singleton.mp hb2) ▸ hb)

/-- The declaration-body loop preserves duplicate-freedom: every append is
guarded by a membership check. -/
theorem parseBody_nodup (src : String) :
    ∀ (ls : List String) (td : TypeDef), tdNodup td →
      tdNodup (parseBody src td ls).1 := by
  intro ls
  induction ls with
  | nil => intro td h; exact h
  | cons l rest ih =>
    intro td h
    obtain ⟨h1, h2, h3⟩ := h
    cases habs : matchAbstract (rstripStr l).data with
    | some term =>
      by_cases hterm : term = ';'
      · simp only [parseBody, habs, if_pos hterm]
        exact ⟨h1, h2, h3⟩
      · simp only [parseBody, habs, if_neg hterm]
        exact ih _ ⟨h1, h2, h3⟩
    | none =>
    cases howns : matchOwns (rstripStr l).data with
    | some r =>
      have hnd : tdNodup (if r.1 ∈ td.owns.map (fun o : OwnsClause => o.attr) then td
          else { td with owns := td.owns ++ [(⟨r.1, r.2.1, src⟩ : OwnsClause)] }) := by
        by_cases hin : r.1 ∈ td.owns.map (fun o => o.attr)
        · rw [if_pos hin]; exact ⟨h1, h2, h3⟩
        · rw [if_neg hin]
          refine ⟨?_, h2, h3⟩
          show ((td.owns ++ [(⟨r.1, r.2.1, src⟩ : OwnsClause)]).map
            fun o : OwnsClause => o.attr).Nodup
          rw [List.map_append]
          exact nodup_append_singleton _ _ h1 (by simpa using hin)
      by_cases hterm : r.2.2 = ';'
      · simp only [parseBody, habs, howns, if_pos hterm]
        exact hnd
      · simp only [parseBody, habs, howns, if_neg hterm]
        exact ih _ hnd
    | none =>
    cases hplays : matchPlays (rstripStr l).data with
    | some r =>
      have hnd : tdNodup (if (r.1, r.2.1) ∈
            td.plays.map (fun p : PlaysClause => (p.relation, p.role))
          then td
          else { td with plays := td.plays ++ [(⟨r.1, r.2.1, src⟩ : PlaysClause)] }) := by
        by_cases hin : (r.1, r.2.1) ∈ td.plays.map (fun p => (p.relation, p.role))
        · rw [if_pos hin]; exact ⟨h1, h2, h3⟩
        · rw [if_neg hin]
          refine ⟨h1, ?_, h3⟩
          show ((td.plays ++ [(⟨r.1, r.2.1, src⟩ : PlaysClause)]).map
            fun p : PlaysClause => (p.relation, p.role)).Nodup
          rw [List.map_append]
          exact nodup_append_singleton _ _ h2 (by simpa using hin)
      by_cases hterm : r.2.2 = ';'
      · simp only [parseBody, habs, howns, hplays, if_pos hterm]
        exact hnd
      · simp only [parseBody, habs, howns, hplays, if_neg hterm]
        exact ih _ hnd
    | none =>
    cases hrel : matchRelates (rstripStr l).data with
    | some r =>
      have hnd : tdNodup (if r.1 ∈ td.relates.map (fun c : RelatesClause => c.role) then td
          else { td with relates := td.relates ++ [(⟨r.1, src⟩ : RelatesClause)] }) := by
        by_cases hin : r.1 ∈ td.relates.map (fun c => c.role)
        · rw [if_pos hin]; exact ⟨h1, h2, h3⟩
        · rw [if_neg hin]
          refine ⟨h1, h2, ?_⟩
          show ((td.relates ++ [(⟨r.1, src⟩ : RelatesClause)]).map
            fun c : RelatesClause => c.role).Nodup
          rw [List.map_append]
          exact nodup_append_singleton _ _ h3 (by simpa using hin)
      by_cases hterm : r.2 = ';'
      · simp only [parseBody, habs, howns, hplays, hrel, if_pos hterm]
        exact hnd
      · simp only [parseBody, habs, howns, hplays, hrel, if_neg hterm]
        exact ih _ hnd
    | none =>
      simp only [parseBody, habs, howns, hplays, hrel]
      exact ih _ ⟨h1, h2, h3⟩

/-- The unconsumed lines returned by the body loop come from its input. -/
theorem parseBody_rest_mem (src : String) :
    ∀ (ls : List String) (td : TypeDef) (x : String),
      x ∈ (parseBody src td ls).2 → x ∈ ls := by
  intro ls
  induction ls with
  | nil => intro td x hx; exact absurd hx (List.not_mem_nil x)
  | cons l rest ih =>
    intro td x hx
    cases habs : matchAbstract (rstripStr l).data with
    | some term =>
      by_cases hterm : term = ';'
      · simp only [parseBody, habs, if_pos hterm] at hx
        exact List.mem_cons_of_mem _ hx
      · simp only [parseBody, habs, if_neg hterm] at hx
        exact List.mem_cons_of_mem _ (ih _ x hx)
    | none =>
    cases howns : matchOwns (rstripStr l).data with
    | some r =>
      by_cases hterm : r.2.2 = ';'
      · simp only [parseBody, habs, howns, if_pos hterm] at hx
        exact List.mem_cons_of_mem _ hx
      · simp only [parseBody, habs, howns, if_neg hterm] at hx
        exact List.mem_cons_of_mem _ (ih _ x hx)
    | none =>
    cases hplays : matchPlays (rstripStr l).data with
    | some r =>
      by_cases hterm : r.2.2 = ';'
      · simp only [parseBody, habs, howns, hplays, if_pos hterm] at hx
        exact List.mem_cons_of_mem _ hx
      · simp only [parseBody, habs, howns, hplays, if_neg hterm] at hx
        exact List.mem_cons_of_mem _ (ih _ x hx)
    | none =>
    cases hrel : matchRelates (rstripStr l).data with
    | some r =>
      by_cases hterm : r.2 = ';'
      · simp only [parseBody, habs, howns, hplays, hrel, if_pos hterm] at hx
        exact List.mem_cons_of_mem _ hx
      · simp only [parseBody, habs, howns, hplays, hrel, if_neg hterm] at hx
        exact List.mem_cons_of_mem _ (ih _ x hx)
    | none =>
      simp only [parseBody, habs, howns, hplays, hrel] at hx
      exact List.mem_cons_of_mem _ (ih _ x hx)

/-- Entries of an updated association list. -/
theorem mem_updateEntries (l : List (String × TypeDef)) (n : String) (td : TypeDef)
    (e : String × TypeDef) (h : e ∈ updateEntries l n td) : e ∈ l ∨ e = (n, td) := by
  by_cases hs : (findEntry? l n).isSome
  · simp only [updateEntries, hs, if_true] at h
    rcases List.mem_map.mp h with ⟨e', he', heq⟩
    by_cases hk : e'.1 = n
    · rw [if_pos hk] at heq
      exact Or.inr heq.symm
    · rw [if_neg hk] at heq
      exact Or.inl (heq ▸ he')
  · simp only [updateEntries, hs, if_false] at h
    rcases List.mem_append.mp h with h' | h'
    · exact Or.inl h'
    · exact Or.inr (List.mem_singleton.mp h')

/-- A successful lookup yields an entry of the list. -/
theorem findEntry?_mem (l : List (String × TypeDef)) (n : String) (td : TypeDef)
    (h : findEntry? l n = some td) : (n, td) ∈ l := by
  induction l with
  | nil => exact Option.noConfusion h
  | cons e rest ih =>
    obtain ⟨k, v⟩ := e
    by_cases hk : k = n
    · have : (if k = n then some v else findEntry? rest n) = some td := h
      rw [if_pos hk] at this
      rw [hk, Option.some.inj this]
      exact List.mem_cons_self _ _
    · have : (if k = n then some v else findEntry? rest n) = some td := h
      rw [if_neg hk] at this
      exact List.mem_cons_of_mem _ (ih this)

/-- A positive section-header guard forces at least two further lines. -/
theorem sectionHeaderAt_shape (l : String) (rest : List String)
    (h : isSectionHeaderAt l rest = true) :
    ∃ l1 l2 rest3, rest = l1 :: l2 :: rest3 := by
  cases rest with
  | nil => simp [isSectionHeaderAt] at h
  | cons l1 rest1 =>
    cases rest1 with
    | nil => simp [isSectionHeaderAt] at h
    | cons l2 rest3 => exact ⟨l1, l2, rest3, rfl⟩

/-- The main parse loop preserves per-type duplicate-freedom provided no
input line matches a bare-extension pattern. -/
theorem parseLoop_nodup (src : String) :
    ∀ (fuel : Nat) (lines : List String) (st : ParseState),
      (∀ l ∈ lines, matchBarePlays (rstripStr l).data = none ∧
        matchBareOwns (rstripStr l).data = none) →
      (∀ e ∈ st.model.types, tdNodup (e : String × TypeDef).2) →
      ∀ e ∈ (parseLoop src fuel lines st).model.types, tdNodup (e : String × TypeDef).2 := by
  intro fuel
  induction fuel with
  | zero => intro lines st _ hm; exact hm
  | succ f ih =>
    intro lines st hbare hm
    cases lines with
    | nil => exact hm
    | cons l rest =>
      have hbl := hbare l (List.mem_cons_self _ _)
      have hbr : ∀ x ∈ rest, matchBarePlays (rstripStr x).data = none ∧
          matchBareOwns (rstripStr x).data = none :=
        fun x hx => hbare x (List.mem_cons_of_mem _ hx)
      by_cases hsec : isSectionHeaderAt l rest = true
      · obtain ⟨l1, l2, rest3, rfl⟩ := sectionHeaderAt_shape l rest hsec
        have hbr3 : ∀ x ∈ rest3, matchBarePlays (rstripStr x).data = none ∧
            matchBareOwns (rstripStr x).data = none :=
          fun x hx => hbr x (List.mem_cons_of_mem _ (List.mem_cons_of_mem _ hx))
        simp only [parseLoop, hsec, if_true]
        cases htit : matchSectionTitle (rstripStr l1).data with
        | some grp =>
          simp only [htit]
          split
          · exact ih rest3 _ hbr3 hm
          · exact ih rest3 _ hbr3 hm
        | none =>
          simp only [htit]
          exact ih rest3 _ hbr3 hm
      · simp only [parseLoop]
        rw [if_neg hsec]
        by_cases hsep : isSeparatorLine (rstripStr l).data = true
        · rw [if_pos hsep]
          exact ih rest _ hbr hm
        · rw [if_neg hsep]
          cases hcom : matchComment (rstripStr l).data with
          | some grp =>
            simp only [hcom]
            split
            · exact ih rest _ hbr hm
            · exact ih rest _ hbr hm
          | none =>
            simp only [hcom]
            split
            · split
              · exact ih rest _ hbr hm
              · exact ih rest _ hbr hm
            · cases hattr : matchAttributeDef (rstripStr l).data with
              | some nv =>
                simp only [hattr]
                split
                · exact ih rest _ hbr hm
                · refine ih rest _ hbr ?_
                  intro e he
                  rcases mem_updateEntries _ _ _ e he with h' | h'
                  · exact hm e h'
                  · rw [h']
                    exact ⟨List.nodup_nil, List.nodup_nil, List.nodup_nil⟩
              | none =>
                simp only [hattr, hbl.1, hbl.2]
                cases hts : matchTypeStart (rstripStr l).data with
                | some ntr =>
                  obtain ⟨name, parent, term, restOfLine⟩ := ntr
                  simp only [hts]
                  cases hfind : st.model.find? name with
                  | some existing =>
                    have hex : tdNodup existing :=
                      hm (name, existing) (findEntry?_mem _ _ _ hfind)
                    simp only [hfind]
                    split
                    · split
                      · refine ih rest _ hbr ?_
                        intro e he
                        rcases mem_updateEntries _ _ _ e he with h' | h'
                        · exact hm e h'
                        · rw [h']
                          exact hex
                      · refine ih rest _ hbr ?_
                        intro e he
                        rcases mem_updateEntries _ _ _ e he with h' | h'
                        · exact hm e h'
                        · rw [h']
                          exact hex
                    · split
                      · refine ih _ _
                          (fun x hx => hbr x (parseBody_rest_mem src rest _ x hx)) ?_
                        intro e he
                        rcases mem_updateEntries _ _ _ e he with h' | h'
                        · exact hm e h'
                        · rw [h']
                          exact parseBody_nodup src rest _ hex
                      · refine ih _ _
                          (fun x hx => hbr x (parseBody_rest_mem src rest _ x hx)) ?_
                        intro e he
                        rcases mem_updateEntries _ _ _ e he with h' | h'
                        · exact hm e h'
                        · rw [h']
                          exact parseBody_nodup src rest _ hex
                  | none =>
                    have hfresh : tdNodup
                        { name := name, kind := classify_type parent, parent := parent,
                          defined_in := src,
                          comment := if st.commentBlock = [] then ""
                                     else joinSpace st.commentBlock,
                          sectionLabel := st.currentSection } :=
                      ⟨List.nodup_nil, List.nodup_nil, List.nodup_nil⟩
                    simp only [hfind]
                    split
                    · split
                      · refine ih rest _ hbr ?_
                        intro e he
                        rcases mem_updateEntries _ _ _ e he with h' | h'
                        · exact hm e h'
                        · rw [h']
                          exact hfresh
                      · refine ih rest _ hbr ?_
                        intro e he
                        rcases mem_updateEntries _ _ _ e he with h' | h'
                        · exact hm e h'
                        · rw [h']
                          exact hfresh
                    · split
                      · refine ih _ _
                          (fun x hx => hbr x (parseBody_rest_mem src rest _ x hx)) ?_
                        intro e he
                        rcases mem_updateEntries _ _ _ e he with h' | h'
                        · exact hm e h'
                        · rw [h']
                          exact parseBody_nodup src rest _ hfresh
                      · refine ih _ _
                          (fun x hx => hbr x (parseBody_rest_mem src rest _ x hx)) ?_
                        intro e he
                        rcases mem_updateEntries _ _ _ e he with h' | h'
                        · exact hm e h'
                        · rw [h']
                          exact parseBody_nodup src rest _ hfresh
                | none =>
                  simp only [hts]
                  exact ih rest _ hbr hm

/-- The kind-resolution pass only rewrites `kind` fields, so it preserves
per-type duplicate-freedom. -/
theorem resolveGo_modelNodup :
    ∀ (names : List String) (m m' : SchemaModel),
      resolveGo names m = some m' →
      (∀ e ∈ m.types, tdNodup (e : String × TypeDef).2) →
      ∀ e ∈ m'.types, tdNodup (e : String × TypeDef).2 := by
  intro names
  induction names with
  | nil =>
    intro m m' h hm
    simp only [resolveGo] at h
    exact (Option.some.inj h) ▸ hm
  | cons nm rest ih =>
    intro m m' h hm
    cases hfm : m.find? nm with
    | none =>
      simp only [resolveGo, hfm] at h
      exact ih m m' h hm
    | some tdn =>
      by_cases hkn : tdn.kind = ""
      · cases hw : kindWalk m tdn.parent (m.types.length + 2) with
        | none =>
          simp only [resolveGo, hfm, if_pos hkn, hw] at h
          exact Option.noConfusion h
        | some k =>
          simp only [resolveGo, hfm, if_pos hkn, hw] at h
          refine ih _ m' h ?_
          intro e he
          rcases mem_updateEntries _ _ _ e he with h' | h'
          · exact hm e h'
          · rw [h']
            exact hm (nm, tdn) (findEntry?_mem _ _ _ hfm)
      · simp only [resolveGo, hfm, if_neg hkn] at h
        exact ih m m' h hm

/-- C2 (amended): clause appends inside declaration bodies are always
deduplicated, so parsing any sequence of lines free of bare-extension
statements — starting from any model whose types are duplicate-free —
yields a model in which, for every type, the `owns` attributes, `plays`
`(relation, role)` pairs and `relates` roles are pairwise distinct.  (The
bare-extension append paths perform no such check; see the
counterexample.) -/
theorem claim2_body_dedup_invariant (src : String) (fileLines : List String)
    (m m' : SchemaModel)
    (hbare : ∀ l ∈ fileLines, matchBarePlays (rstripStr l).data = none ∧
      matchBareOwns (rstripStr l).data = none)
    (hm : ∀ e ∈ m.types, tdNodup (e : String × TypeDef).2)
    (hp : parse_tql_file src fileLines m = some m') :
    ∀ e ∈ m'.types, tdNodup (e : String × TypeDef).2 := by
  have h1 := parseLoop_nodup src (fileLines.length + 1) fileLines
    ⟨m, "", []⟩ hbare hm
  exact resolveGo_modelNodup _ _ m' hp h1

/-- C2 witness: a declaration body with a repeated `owns` clause followed by
no bare extensions parses to a duplicate-free model. -/
theorem claim2_body_dedup_invariant_witness :
    ((∀ l ∈ ["x sub entity,", "    owns a,", "    owns a;"],
        matchBarePlays (rstripStr l).data = none ∧
          matchBareOwns (rstripStr l).data = none) ∧
      (∀ e ∈ emptyModel.types, tdNodup (e : String × TypeDef).2) ∧
      parse_tql_file "f" ["x sub entity,", "    owns a,", "    owns a;"] emptyModel =
        some ⟨[("x", ⟨"x", "entity", "entity", false, "", [⟨"a", false, "f"⟩],
          [], [], "f", "", ""⟩)]⟩) ∧
    (∀ e ∈ (⟨[("x", ⟨"x", "entity", "entity", false, "", [⟨"a", false, "f"⟩],
        [], [], "f", "", ""⟩)]⟩ : SchemaModel).types,
      tdNodup (e : String × TypeDef).2) :=
  ⟨⟨by decide, by decide, by decide⟩,
    claim2_body_dedup_invariant "f" ["x sub entity,", "    owns a,", "    owns a;"]
      emptyModel _ (by decide) (by decide) (by decide)⟩

theorem swapE_swapE (e : Edge) : swapE (swapE e) = e := rfl

/-- Accumulator facts for the innermost edge-emission loop. -/
theorem emitInner_spec (relName lp : String) :
    ∀ (rps : List String) (seen : List Edge),
      (∀ x, x ∈ (emitInner relName lp rps seen).2 ↔
        x ∈ (emitInner relName lp rps seen).1 ∨ x ∈ seen) ∧
      (emitInner relName lp rps seen).1.Pairwise edgeUndirNe ∧
      (∀ e ∈ (emitInner relName lp rps seen).1, e ∉ seen ∧ swapE e ∉ seen) ∧
      (∀ rp ∈ rps, (lp, rp, relName) ∈ (emitInner relName lp rps seen).2 ∨
        (rp, lp, relName) ∈ (emitInner relName lp rps seen).2) := by
  intro rps
  induction rps with
  | nil =>
    intro seen
    refine ⟨fun x => by simp [emitInner], by simp [emitInner], by simp [emitInner],
      fun rp hrp => absurd hrp (List.not_mem_nil rp)⟩
  | cons rp rest ih =>
    intro seen
    by_cases hseen : (lp, rp, relName) ∈ seen ∨ (rp, lp, relName) ∈ seen
    · obtain ⟨ihA, ihP, ihF, ihC⟩ := ih seen
      have hstep : emitInner relName lp (rp :: rest) seen = emitInner relName lp rest seen := by
        simp only [emitInner, if_pos hseen]
      rw [hstep]
      refine ⟨ihA, ihP, ihF, ?_⟩
      intro rp' hrp'
      rcases List.mem_cons.mp hrp' with rfl | hrp''
      · rcases hseen with h' | h'
        · exact Or.inl ((ihA _).mpr (Or.inr h'))
        · exact Or.inr ((ihA _).mpr (Or.inr h'))
      · exact ihC rp' hrp''
    · obtain ⟨ihA, ihP, ihF, ihC⟩ := ih ((lp, rp, relName) :: seen)
      have hstep : emitInner relName lp (rp :: rest) seen =
          ((lp, rp, relName) :: (emitInner relName lp rest ((lp, rp, relName) :: seen)).1,
           (emitInner relName lp rest ((lp, rp, relName) :: seen)).2) := by
        simp only [emitInner, if_neg hseen]
      rw [hstep]
      have hsub : ∀ x, x ∈ ((lp, rp, relName) :: seen) →
          x ∈ (emitInner relName lp rest ((lp, rp, relName) :: seen)).2 :=
        fun x hx => (ihA x).mpr (Or.inr hx)
      refine ⟨?_, ?_, ?_, ?_⟩
      · intro x
        rw [ihA x]
        simp only [List.mem_cons]
        constructor
        · rintro (h' | (rfl | h'))
          · exact Or.inl (Or.inr h')
          · exact Or.inl (Or.inl rfl)
          · exact Or.inr h'
        · rintro ((rfl | h') | h')
          · exact Or.inr (Or.inl rfl)
          · exact Or.inl h'
          · exact Or.inr (Or.inr h')
      · rw [List.pairwise_cons]
        refine ⟨?_, ihP⟩
        intro e2 he2
        obtain ⟨hf1, hf2⟩ := ihF e2 he2
        intro hcontra
        rcases hcontra with rfl | h'
        · exact hf1 (List.mem_cons_self _ _)
        · refine hf2 ?_
          rw [h', swapE_swapE]
          exact List.mem_cons_self _ _
      · intro e he
        rcases List.mem_cons.mp he with rfl | he'
        · constructor
          · intro hc
            exact hseen (Or.inl hc)
          · intro hc
            exact hseen (Or.inr hc)
        · obtain ⟨hf1, hf2⟩ := ihF e he'
          exact ⟨fun hc => hf1 (List.mem_cons_of_mem _ hc),
            fun hc => hf2 (List.mem_cons_of_mem _ hc)⟩
      · intro rp' hrp'
        rcases List.mem_cons.mp hrp' with rfl | hrp''
        · exact Or.inl (hsub _ (List.mem_cons_self _ _))
        · exact ihC rp' hrp''

/-- Assembly of two consecutive emission steps threaded through `seen`. -/
theorem emit_append_assemble
    (seen out1 seen1 out2 seen2 : List Edge)
    (hA1 : ∀ x, x ∈ seen1 ↔ x ∈ out1 ∨ x ∈ seen)
    (hP1 : out1.Pairwise edgeUndirNe)
    (hF1 : ∀ e ∈ out1, e ∉ seen ∧ swapE e ∉ seen)
    (hA2 : ∀ x, x ∈ seen2 ↔ x ∈ out2 ∨ x ∈ seen1)
    (hP2 : out2.Pairwise edgeUndirNe)
    (hF2 : ∀ e ∈ out2, e ∉ seen1 ∧ swapE e ∉ seen1) :
    (∀ x, x ∈ seen2 ↔ x ∈ out1 ++ out2 ∨ x ∈ seen) ∧
    (out1 ++ out2).Pairwise edgeUndirNe ∧
    (∀ e ∈ out1 ++ out2, e ∉ seen ∧ swapE e ∉ seen) := by
  refine ⟨?_, ?_, ?_⟩
  · intro x
    rw [hA2 x, hA1 x, List.mem_append]
    constructor
    · rintro (h | (h | h))
      · exact Or.inl (Or.inr h)
      · exact Or.inl (Or.inl h)
      · exact Or.inr h
    · rintro ((h | h) | h)
      · exact Or.inr (Or.inl h)
      · exact Or.inl h
      · exact Or.inr (Or.inr h)
  · rw [List.pairwise_append]
    refine ⟨hP1, hP2, ?_⟩
    intro e1 he1 e2 he2
    obtain ⟨hf1, hf2⟩ := hF2 e2 he2
    have he1s : e1 ∈ seen1 := (hA1 e1).mpr (Or.inl he1)
    intro hc
    rcases hc with rfl | hc'
    · exact hf1 he1s
    · refine hf2 ?_
      rw [hc', swapE_swapE]
      exact he1s
  · intro e he
    rcases List.mem_append.mp he with he' | he'
    · exact hF1 e he'
    · obtain ⟨hf1, hf2⟩ := hF2 e he'
      refine ⟨fun hc => hf1 ((hA1 e).mpr (Or.inr hc)),
        fun hc => hf2 ((hA1 (swapE e)).mpr (Or.inr hc))⟩

/-- Accumulator facts for the left-player loop. -/
theorem emitLeft_spec (relName : String) :
    ∀ (lps rps : List String) (seen : List Edge),
      (∀ x, x ∈ (emitLeft relName lps rps seen).2 ↔
        x ∈ (emitLeft relName lps rps seen).1 ∨ x ∈ seen) ∧
      (emitLeft relName lps rps seen).1.Pairwise edgeUndirNe ∧
      (∀ e ∈ (emitLeft relName lps rps seen).1, e ∉ seen ∧ swapE e ∉ seen) ∧
      (∀ lp ∈ lps, ∀ rp ∈ rps,
        (lp, rp, relName) ∈ (emitLeft relName lps rps seen).2 ∨
        (rp, lp, relName) ∈ (emitLeft relName lps rps seen).2) := by
  intro lps
  induction lps with
  | nil =>
    intro rps seen
    refine ⟨fun x => by simp [emitLeft], by simp [emitLeft], by simp [emitLeft],
      fun lp hlp => absurd hlp (List.not_mem_nil lp)⟩
  | cons lp rest ih =>
    intro rps seen
    obtain ⟨iA, iP, iF, iC⟩ := emitInner_spec relName lp rps seen
    obtain ⟨jA, jP, jF, jC⟩ := ih rps (emitInner relName lp rps seen).2
    have hstep : emitLeft relName (lp :: rest) rps seen =
        ((emitInner relName lp rps seen).1 ++
          (emitLeft relName rest rps (emitInner relName lp rps seen).2).1,
         (emitLeft relName rest rps (emitInner relName lp rps seen).2).2) := by
      simp only [emitLeft]
    rw [hstep]
    obtain ⟨aA, aP, aF⟩ := emit_append_assemble seen _ _ _ _ iA iP iF jA jP jF
    refine ⟨aA, aP, aF, ?_⟩
    intro lp' hlp' rp hrp
    rcases List.mem_cons.mp hlp' with rfl | hlp''
    · rcases iC rp hrp with h' | h'
      · exact Or.inl ((jA _).mpr (Or.inr h'))
      · exact Or.inr ((jA _).mpr (Or.inr h'))
    · exact jC lp' hlp'' rp hrp

/-- Accumulator facts for the role-pair loop. -/
theorem emitForPairs_spec (relName : String) :
    ∀ (pairs : List ((String × List String) × (String × List String)))
      (seen : List Edge),
      (∀ x, x ∈ (emitForPairs relName pairs seen).2 ↔
        x ∈ (emitForPairs relName pairs seen).1 ∨ x ∈ seen) ∧
      (emitForPairs relName pairs seen).1.Pairwise edgeUndirNe ∧
      (∀ e ∈ (emitForPairs relName pairs seen).1, e ∉ seen ∧ swapE e ∉ seen) ∧
      (∀ pr ∈ pairs, ∀ lp ∈ (pr : (String × List String) × (String × List String)).1.2,
        ∀ rp ∈ pr.2.2,
        (lp, rp, relName) ∈ (emitForPairs relName pairs seen).2 ∨
        (rp, lp, relName) ∈ (emitForPairs relName pairs seen).2) := by
  intro pairs
  induction pairs with
  | nil =>
    intro seen
    refine ⟨fun x => by simp [emitForPairs], by simp [emitForPairs],
      by simp [emitForPairs], fun pr hpr => absurd hpr (List.not_mem_nil pr)⟩
  | cons pr rest ih =>
    intro seen
    obtain ⟨iA, iP, iF, iC⟩ := emitLeft_spec relName pr.1.2 pr.2.2 seen
    obtain ⟨jA, jP, jF, jC⟩ := ih (emitLeft relName pr.1.2 pr.2.2 seen).2
    have hstep : emitForPairs relName (pr :: rest) seen =
        ((emitLeft relName pr.1.2 pr.2.2 seen).1 ++
          (emitForPairs relName rest (emitLeft relName pr.1.2 pr.2.2 seen).2).1,
         (emitForPairs relName rest (emitLeft relName pr.1.2 pr.2.2 seen).2).2) := by
      simp only [emitForPairs]
    rw [hstep]
    obtain ⟨aA, aP, aF⟩ := emit_append_assemble seen _ _ _ _ iA iP iF jA jP jF
    refine ⟨aA, aP, aF, ?_⟩
    intro pr' hpr' lp hlp rp hrp
    rcases List.mem_cons.mp hpr' with rfl | hpr''
    · rcases iC lp hlp rp hrp with h' | h'
      · exact Or.inl ((jA _).mpr (Or.inr h'))
      · exact Or.inr ((jA _).mpr (Or.inr h'))
    · exact jC pr' hpr'' lp hlp rp hrp

/-- Accumulator facts for the relation loop (the `seen` set is shared across
relations). -/
theorem erEdgesGo_spec (m : SchemaModel) (ns : String) :
    ∀ (rels : List TypeDef) (seen : List Edge) (res : List Edge × List Edge),
      erEdgesGo m ns rels seen = some res →
      (∀ x, x ∈ res.2 ↔ x ∈ res.1 ∨ x ∈ seen) ∧
      res.1.Pairwise edgeUndirNe ∧
      (∀ e ∈ res.1, e ∉ seen ∧ swapE e ∉ seen) ∧
      (∀ rel ∈ rels, ∀ rpm, rolePlayersOf m ns rel = some rpm →
        ∀ pr ∈ rolePairs rpm,
          ∀ lp ∈ (pr : (String × List String) × (String × List String)).1.2,
          ∀ rp ∈ pr.2.2,
          (lp, rp, rel.name) ∈ res.2 ∨ (rp, lp, rel.name) ∈ res.2) := by
  intro rels
  induction rels with
  | nil =>
    intro seen res h
    simp only [erEdgesGo] at h
    obtain rfl := Option.some.inj h
    refine ⟨fun x => by simp, by simp, by simp,
      fun rel hrel => absurd hrel (List.not_mem_nil rel)⟩
  | cons rel rest ih =>
    intro seen res h
    cases hrp : rolePlayersOf m ns rel with
    | none =>
      simp only [erEdgesGo, hrp] at h
      exact Option.noConfusion h
    | some rpm =>
      cases hrec : erEdgesGo m ns rest
          (emitForPairs rel.name (rolePairs rpm) seen).2 with
      | none =>
        simp only [erEdgesGo, hrp, hrec] at h
        exact Option.noConfusion h
      | some r2 =>
        simp only [erEdgesGo, hrp, hrec] at h
        obtain rfl := (Option.some.inj h).symm
        obtain ⟨iA, iP, iF, iC⟩ := emitForPairs_spec rel.name (rolePairs rpm) seen
        obtain ⟨jA, jP, jF, jC⟩ := ih _ r2 hrec
        obtain ⟨aA, aP, aF⟩ := emit_append_assemble seen _ _ _ _ iA iP iF jA jP jF
        refine ⟨aA, aP, aF, ?_⟩
        intro rel' hrel' rpm' hrpm' pr hpr lp hlp rp hrp2
        rcases List.mem_cons.mp hrel' with rfl | hrel''
        · rw [hrp] at hrpm'
          obtain rfl := Option.some.inj hrpm'
          rcases iC pr hpr lp hlp rp hrp2 with h' | h'
          · exact Or.inl ((jA _).mpr (Or.inr h'))
          · exact Or.inr ((jA _).mpr (Or.inr h'))
        · exact jC rel' hrel'' rpm' hrpm' pr hpr lp hlp rp hrp2

/-- C7 (amended): the relationship diagram never emits two edges between the
same ordered-or-reversed pair of TYPE NAMES with the same relation name, and
for every unordered pair of distinct roles of a relation and every pair of
their role players exactly one such edge exists (uniqueness from the
pairwise part, existence from the second part).  Deduplication is performed
on raw names before sanitization, so colliding sanitized identifiers can
still duplicate a rendered edge — see the counterexample. -/
theorem claim7_edge_dedup (m : SchemaModel) (ns : String) (filt : Option String)
    (es : List Edge) (h : erEdges m ns filt = some es) :
    es.Pairwise edgeUndirNe ∧
    (∀ rel ∈ relationsOf m ns filt, ∀ rpm, rolePlayersOf m ns rel = some rpm →
      ∀ pr ∈ rolePairs rpm,
        ∀ lp ∈ (pr : (String × List String) × (String × List String)).1.2,
        ∀ rp ∈ pr.2.2,
        ∃ e ∈ es, e = (lp, rp, rel.name) ∨ e = (rp, lp, rel.name)) := by
  cases hgo : erEdgesGo m ns (relationsOf m ns filt) [] with
  | none =>
    rw [erEdges, hgo] at h
    exact Option.noConfusion h
  | some res =>
    rw [erEdges, hgo] at h
    obtain rfl : res.1 = es := Option.some.inj h
    obtain ⟨aA, aP, aF, aC⟩ := erEdgesGo_spec m ns _ [] res hgo
    refine ⟨aP, ?_⟩
    intro rel hrel rpm hrpm pr hpr lp hlp rp hrp
    rcases aC rel hrel rpm hrpm pr hpr lp hlp rp hrp with h' | h'
    · rcases (aA _).mp h' with h'' | h''
      · exact ⟨(lp, rp, rel.name), h'', Or.inl rfl⟩
      · exact absurd h'' (List.not_mem_nil _)
    · rcases (aA _).mp h' with h'' | h''
      · exact ⟨(rp, lp, rel.name), h'', Or.inr rfl⟩
      · exact absurd h'' (List.not_mem_nil _)

/-- C7 witness: the diagram of the concrete inherited-plays model for `scilit`. -/
theorem claim7_edge_dedup_witness :
    erEdges inhPlaysModel "scilit" none = some [("par", "q", "R"), ("t", "q", "R")] ∧
    (([("par", "q", "R"), ("t", "q", "R")] : List Edge).Pairwise edgeUndirNe ∧
      (∀ rel ∈ relationsOf inhPlaysModel "scilit" none, ∀ rpm,
        rolePlayersOf inhPlaysModel "scilit" rel = some rpm →
        ∀ pr ∈ rolePairs rpm,
          ∀ lp ∈ (pr : (String × List String) × (String × List String)).1.2,
          ∀ rp ∈ pr.2.2,
          ∃ e ∈ [("par", "q", "R"), ("t", "q", "R")],
            e = (lp, rp, rel.name) ∨ e = (rp, lp, rel.name))) :=
  ⟨by decide,
    claim7_edge_dedup inhPlaysModel "scilit" none
      [("par", "q", "R"), ("t", "q", "R")] (by decide)⟩
